import Mathlib

set_option maxRecDepth 100000

/-!
Verification of the FastFileStats shared-section engine (FastFileStats.cpp /
FastFileStats.h) against its specification.

The development shallowly embeds the program:

* strings (`std::wstring`, `cFileName`) are lists of UTF-16 code units
  (`List Nat`, each unit `< 2 ^ 16`, NUL-terminator not stored);
* 32-bit machine arithmetic (`DWORD`) is `Nat` with explicit `% 2 ^ 32`
  where overflow can matter;
* the shared region is modelled at record granularity: an association list
  from byte offsets (relative to the region base) to records, together with
  the bucket chains and the header fields.  Offsets follow the real layout:
  `sizeof(FFS_Header) = 32`, the fixed prefix of a record (the
  `WIN32_FIND_DATA` fields up to and including `dwReserved1`) is 44 bytes,
  and the name bytes follow, padded as computed by `AdvanceNext`.
* fallible or unbounded-recursion code (`MatchesDirChain`, chain walks) is
  modelled with explicit fuel and `Option` results.
-/

namespace FFS

/-- `sizeof(FFS_Header)`: 8 DWORD fields. -/
def headerSize : Nat := 32

/-- Byte distance from a record start to its `cFileName` field:
`dwFileAttributes (4) + ftCreationTime (8) + ftLastAccessTime (8) +
ftLastWriteTime (8) + nFileSizeHigh (4) + nFileSizeLow (4) +
dwReserved0 (4) + dwReserved1 (4)`. -/
def namePos : Nat := 44

/-- `FILE_ATTRIBUTE_DIRECTORY`. -/
def attrDirectory : Nat := 16

/-- `FILE_ATTRIBUTE_REPARSE_POINT`. -/
def attrReparse : Nat := 1024

/-- UTF-16 code unit of `'\\'`. -/
def bsCU : Nat := 92

/-- UTF-16 code unit of `'.'`. -/
def dotCU : Nat := 46

/-- `2 ^ 32`, the wrap-around modulus of `DWORD` arithmetic. -/
def M32 : Nat := 4294967296

/-- `FFS_BucketCount`. -/
def bucketCount : Nat := 1543

/-!  ## The hash (`Hash_FNV1a_32`, `FileHash`)  -/

/-- One iteration of the loop of `Hash_FNV1a_32`:
`hval ^= (DWORD)*be--;` followed by
`hval += (hval << 1) + (hval << 4) + (hval << 7) + (hval << 8) + (hval << 24);`.
Each shift and the sum wrap at 32 bits. -/
def hashStep (hval b : Nat) : Nat :=
  let x := hval ^^^ b
  (x + x * 2 % M32 + x * 16 % M32 + x * 128 % M32 + x * 256 % M32 +
      x * 16777216 % M32) % M32

/-- `Hash_FNV1a_32(bp, len)`: FNV-1a seeded with `0x811c9dc5`, consuming the
buffer from its last byte down to its first (`foldr` applies the innermost
step to the last list element first). -/
def Hash_FNV1a_32 (bytes : List Nat) : Nat :=
  bytes.foldr (fun b h => hashStep h b) 0x811c9dc5

/-- The reference reversed FNV-1a from the specification:
`h = (h XOR byte) * 0x01000193` with 32-bit wrapping, bytes scanned from the
end of the buffer to the beginning. -/
def fnv1a32ReverseRef (bytes : List Nat) : Nat :=
  bytes.foldr (fun b h => (h ^^^ b) * 16777619 % M32) 0x811c9dc5

/-- The raw UTF-16 little-endian bytes of a string, as hashed by
`FileHash` (`fname.size() * sizeof(wchar_t)` bytes starting at `&fname[0]`). -/
def utf16Bytes (s : List Nat) : List Nat :=
  s.foldr (fun c acc => c % 256 :: c / 256 % 256 :: acc) []

/-- `FileHash(fname)`. -/
def FileHash (fname : List Nat) : Nat :=
  Hash_FNV1a_32 (utf16Bytes fname)

/-!  ## The directory filter (`AddDir`)  -/

/-- `AddDir(name)` over the NUL-terminated `cFileName`; reading one past the
end of the stored units yields the terminator, modelled by `headD _ 0`. -/
def AddDir (name : List Nat) : Bool :=
  if name.headD 0 ≠ dotCU then true
  else if name.tail.headD 0 = 0 then false
  else if name.tail.headD 0 ≠ dotCU then true
  else false

/-!  ## The arena stride (`AdvanceNext`)  -/

/-- The stride computed by the mutating `AdvanceNext`:
`len = (wcslen(name) + 1) * sizeof(wchar_t); len = (len + 8) & ~7;`.
Masking a `DWORD` with `~7` clears its low three bits, i.e. rounds down to a
multiple of 8; the quantities involved stay far below `2 ^ 32`. -/
def strideOf (name : List Nat) : Nat :=
  ((name.length + 1) * 2 + 8) / 8 * 8

/-- The stride the specification describes: the size of the record's name
(terminator included) rounded up to a multiple of 8, with no extra padding
when the length is already a multiple of 8.  Stated from the spec's words,
for comparison with `strideOf`. -/
def strideSpec (name : List Nat) : Nat :=
  ((name.length + 1) * 2 + 7) / 8 * 8

/-!  ## The data model  -/

/-- The lite `WIN32_FIND_DATA` record: the fields the program reads or
writes.  `ftCreationTime` and `ftLastAccessTime` are never accessed and are
omitted (they are accounted for in `namePos`).  `ftLo`/`ftHi` are
`ftLastWriteTime.dwLowDateTime`/`.dwHighDateTime`, `szHi`/`szLo` are
`nFileSizeHigh`/`nFileSizeLow`, `reserved0`/`reserved1` are
`dwReserved0`/`dwReserved1`, `name` is `cFileName` (NUL terminator not
stored). -/
structure FindData where
  attrs : Nat
  ftLo : Nat
  ftHi : Nat
  szHi : Nat
  szLo : Nat
  reserved0 : Nat
  reserved1 : Nat
  name : List Nat
deriving DecidableEq, Inhabited

/-- One entry as yielded by `FindFirstFileW` / `FindNextFileW`. -/
structure FsEntry where
  name : List Nat
  attrs : Nat
  ftLo : Nat
  ftHi : Nat
  szHi : Nat
  szLo : Nat
deriving DecidableEq, Inhabited

/-- A header-field write event, for stating in which order `CreateFFS`
publishes the header (claim C4). -/
inductive Ev where
  | status (s : Nat)
  | bytesField (n : Nat)
  | dirOffsetField (n : Nat)
deriving DecidableEq

/-- Instrumentation journal for one successfully enumerated directory:
`path`/`qOff` are the two components of the `pending_dirs` entry
(`std::get<0>(e)` and `std::get<1>(e)`; `qOff` is the offset of this
directory's own entry record in its parent's group, or `root_offset` for
the top directory), `leaderOff` the offset of the first record
`FindFirstFileW` filled in, `entries` the listing in yielded order, and
`comps` the path components of `path` after the top directory. -/
structure ProcDir where
  path : List Nat
  qOff : Nat
  leaderOff : Nat
  entries : List FsEntry
  comps : List (List Nat)
deriving DecidableEq

/-- The shared region, at record granularity: the `FFS_Header` fields, the
records with their byte offsets from the region base (in layout order),
and instrumentation: the order of header publication writes (`trace`) and
the per-directory journal (`procDirs`).  The index area — the sentinel,
the zero-terminated bucket chains and the `FFS_Dir` table — is recovered
from the journal by `bucketChain` / `indexWords`, which reproduce exactly
what the indexer wrote (same contents, same order). -/
structure Region where
  magic : Nat
  version : Nat
  status : Nat
  num_nodes : Nat
  num_dirs : Nat
  bytes : Nat
  dir_offset : Nat
  root_offset : Nat
  recs : List (Nat × FindData)
  sentinelOff : Nat
  trace : List Ev
  procDirs : List ProcDir
  pending_fixes : Nat
  reparse_count : Nat
deriving DecidableEq, Inhabited

/-- The chain of bucket `b`: the offsets of the first records of the
directories whose path hashes to `b`, in processing order — the contents
of the `dir_offsets[hash % FFS_BucketCount]` accumulator that the indexer
emits as the zero-terminated run of words `FFS_Dir.nodes[b]` points at
(the terminating zero word is the end of the list). -/
def bucketChain (pds : List ProcDir) (b : Nat) : List Nat :=
  (pds.filter (fun d => FileHash d.path % bucketCount == b)).map
    (·.leaderOff)

/-- Dereference an offset into the arena: the record laid out at byte offset
`off`.  Reads of offsets where no record starts (e.g. one step past the last
group, where the code would read into the zero-initialised padding or the
index words, whose values can never equal a live group id) return `none`. -/
def recAt (recs : List (Nat × FindData)) (off : Nat) : Option FindData :=
  (recs.find? (fun p => p.1 == off)).map (·.2)

/-- Offset of the record following the record `r` at offset `off`: the const
`AdvanceNext`, `&current->cFileName[0] + current->dwReserved1`. -/
def nextOffset (off : Nat) (r : FindData) : Nat :=
  off + namePos + r.reserved1

/-!  ## The path resolver  -/

/-- `EndsWith(full, ending)`:
`full.compare(full.length() - ending.length(), ending.length(), ending) == 0`. -/
def EndsWith (full ending : List Nat) : Bool :=
  if full.length < ending.length then false
  else full.drop (full.length - ending.length) == ending

/-- `MatchesDirChain(start, w32fd, path)`, with the record passed by offset
and explicit fuel for the unbounded recursion (parent chains of a built
region strictly descend in offset, so `recs.length + 1` fuel is always
enough there).  The recursive call passes
`std::wstring(path, 0, path.size() - term.size() - 1)`: `size_t`
subtraction means that when `path.size() == term.size()` the count wraps
around and `std::wstring` clamps it to the whole remainder, i.e. the
recursion keeps `path` unchanged; the model reproduces that corner. -/
def MatchesDirChain (recs : List (Nat × FindData)) :
    Nat → Nat → List Nat → Bool
  | 0, _, _ => false
  | fuel + 1, off, path =>
    match recAt recs off with
    | none => false
    | some r =>
      if ¬ EndsWith path r.name then false
      else if r.reserved0 == 0 then path == r.name
      else
        MatchesDirChain recs fuel r.reserved0
          (if path.length = r.name.length then path
           else path.take (path.length - r.name.length - 1))

/-- The bucket-chain walk inside `GetDirectory`: advance through the chain
until the terminating zero word, returning the first candidate whose parent
chain matches.  A candidate without the directory attribute hits
`__debugbreak()`; the model returns `none` there (the trap never fires on a
built region, where every chain member is a directory's first record). -/
def chainScan (recs : List (Nat × FindData)) (fuel : Nat) (path : List Nat) :
    List Nat → Option Nat
  | [] => none
  | off :: rest =>
    match recAt recs off with
    | none => none
    | some r =>
      if r.attrs &&& attrDirectory == 0 then none
      else if MatchesDirChain recs fuel r.reserved0 path then some off
      else chainScan recs fuel path rest

/-- `GetDirectory(header, path)`, returning the offset of the directory's
first ("dot") record.  `ffs_dir->nodes[hash % FFS_BucketCount]` points at
the zero-terminated chain of that bucket, which is `bucketChain` of the
journal. -/
def GetDirectory (R : Region) (path : List Nat) : Option Nat :=
  if path.isEmpty then none
  else
    chainScan R.recs (R.recs.length + 1) path
      (bucketChain R.procDirs (FileHash path % bucketCount))

/-- The scan loop of `GetLeaf`:
`while (curr->dwReserved0 == group_id) { if (name == curr->cFileName) ...`.
Fuel `recs.length + 1` always suffices: every step moves to a strictly
larger offset, so the walk can visit each record at most once before
falling off the arena. -/
def GetLeafAux (recs : List (Nat × FindData)) (gid : Nat)
    (leaf : List Nat) : Nat → Nat → Option (Nat × FindData)
  | 0, _ => none
  | fuel + 1, off =>
    match recAt recs off with
    | none => none
    | some r =>
      if r.reserved0 ≠ gid then none
      else if leaf == r.name then some (off, r)
      else GetLeafAux recs gid leaf fuel (nextOffset off r)

/-- `GetLeaf(dot_node, name)`: scan the group that starts just past the
given first record, the group id being the first record's `dwReserved0`. -/
def GetLeaf (recs : List (Nat × FindData)) (dotOff : Nat) (dotRec : FindData)
    (leaf : List Nat) : Option (Nat × FindData) :=
  GetLeafAux recs dotRec.reserved0 leaf (recs.length + 1)
    (nextOffset dotOff dotRec)

/-- `path.rfind(L'\\')`: index of the last backslash. -/
def rfindBS : List Nat → Option Nat
  | [] => none
  | c :: rest =>
    match rfindBS rest with
    | some i => some (i + 1)
    | none => if c == bsCU then some 0 else none

/-- `GetNode(header, path)` (the spec's `resolve_any`), returning the found
record together with its offset. -/
def GetNode (R : Region) (path : List Nat) : Option (Nat × FindData) :=
  if path.length < 3 then none
  else if path.getD 1 0 ≠ 58 then none
  else if path.getLast? == some bsCU then
    match GetDirectory R path.dropLast with
    | none => none
    | some off => (recAt R.recs off).map (fun r => (off, r))
  else
    match rfindBS path with
    | none => none
    | some i =>
      match GetDirectory R (path.take i) with
      | none => none
      | some dOff =>
        match recAt R.recs dOff with
        | none => none
        | some d =>
          if d.reserved0 == 0 then none
          else GetLeaf R.recs dOff d (path.drop (i + 1))

/-!  ## Reconstruction of full paths  -/

/-- The full path of the record at `off`, reconstructed by walking
`parent_offset` (`dwReserved0`) links to the synthetic root and joining the
`name` fields with a backslash (the claims' notion of the path a record
represents). -/
def reconstruct (recs : List (Nat × FindData)) :
    Nat → Nat → Option (List Nat)
  | 0, _ => none
  | fuel + 1, off =>
    match recAt recs off with
    | none => none
    | some r =>
      if r.reserved0 = 0 then some r.name
      else (reconstruct recs fuel r.reserved0).map (· ++ bsCU :: r.name)

/-- The name fields along the parent chain starting at `off`, root first. -/
def chainNames (recs : List (Nat × FindData)) :
    Nat → Nat → Option (List (List Nat))
  | 0, _ => none
  | fuel + 1, off =>
    match recAt recs off with
    | none => none
    | some r =>
      if r.reserved0 = 0 then some [r.name]
      else (chainNames recs fuel r.reserved0).map (· ++ [r.name])

/-- What a successful `MatchesDirChain` run actually certifies about the
query: each chain record's `name` is consumed from the right of the query
by exact code-unit comparison, with exactly one unchecked query character
before each consumed component (the position where the true path has the
`'\\'` separator), and the root record's name must equal the whole rest of
the query.  `stay` mirrors the `size_t` corner of `MatchesDirChain` where
the query exactly equals a non-root component and is passed up unchanged. -/
inductive LaxChain (recs : List (Nat × FindData)) : Nat → List Nat → Prop
  | root : ∀ off r, recAt recs off = some r → r.reserved0 = 0 →
      LaxChain recs off r.name
  | step : ∀ off r q c, recAt recs off = some r → r.reserved0 ≠ 0 →
      LaxChain recs r.reserved0 q →
      LaxChain recs off (q ++ c :: r.name)
  | stay : ∀ off r, recAt recs off = some r → r.reserved0 ≠ 0 →
      LaxChain recs r.reserved0 r.name →
      LaxChain recs off r.name

/-!  ## The builder (`CreateFFS`)  -/

/-- The record the Walker materialises for one enumerated entry: the OS
copies the stat fields and the name into the slot, the Walker stuffs the
queued offset into `dwReserved0`, and the mutating `AdvanceNext` seals the
slot by storing the stride in `dwReserved1`. -/
def entryRec (parentOff : Nat) (e : FsEntry) : FindData :=
  ⟨e.attrs, e.ftLo, e.ftHi, e.szHi, e.szLo, parentOff, strideOf e.name, e.name⟩

/-- The abstract filesystem the Walker enumerates: for an absolute
directory path, the entries `FindFirstFileW(path + "\\*")` /
`FindNextFileW` yield, in yielded order (on Windows the `"."` self-entry
comes first), or nothing when the enumeration fails. -/
abbrev Fs : Type := List (List Nat × List FsEntry)

/-- `FindFirstFileW(path + "\\*", w32fd)`: the first yielded entry and the
rest.  A successful enumeration yields at least one entry, so an empty
listing also models failure (`INVALID_HANDLE_VALUE`). -/
def fsListing (fs : Fs) (p : List Nat) : Option (FsEntry × List FsEntry) :=
  match (List.find? (fun kv => kv.1 == p) fs).map (·.2) with
  | some (e :: rest) => some (e, rest)
  | _ => none

/-- A `pending_dirs` / `found_dirs` queue element,
`std::tuple<std::wstring, DWORD>`, with the instrumentation component
`comps` (the path components after the top directory). -/
structure QEnt where
  path : List Nat
  qOff : Nat
  comps : List (List Nat)
deriving DecidableEq

/-- The Walker's evolving state: the arena cursor (`w32fd` as an offset),
the records laid out so far, the per-directory journal, the `found_dirs`
queue of the next generation, and the four counters. -/
structure BuildSt where
  off : Nat
  recs : List (Nat × FindData)
  procDirs : List ProcDir
  found : List QEnt
  all_count : Nat
  dir_count : Nat
  pending_fixes : Nat
  reparse_count : Nat
deriving DecidableEq

/-- Lay the record down at the cursor and advance the cursor
(`w32fd = AdvanceNext(w32fd)`). -/
def emitRec (st : BuildSt) (r : FindData) : BuildSt :=
  { st with off := nextOffset st.off r, recs := st.recs ++ [(st.off, r)] }

/-- The body of the `FindNextFileW` loop for one entry of directory `qe`:
stuff `dwReserved0`, count / enqueue reparse points and directories,
increment `all_count`, advance. -/
def stepEntry (qe : QEnt) (st : BuildSt) (e : FsEntry) : BuildSt :=
  let st1 := emitRec st (entryRec qe.qOff e)
  let st2 :=
    if e.attrs &&& attrReparse ≠ 0 then
      { st1 with reparse_count := st1.reparse_count + 1 }
    else if e.attrs &&& attrDirectory ≠ 0 then
      if AddDir e.name then
        { st1 with
            found := st1.found ++
              [⟨qe.path ++ bsCU :: e.name, st.off, qe.comps ++ [e.name]⟩],
            dir_count := st1.dir_count + 1 }
      else st1
    else st1
  { st2 with all_count := st2.all_count + 1 }

/-- Process one queued directory: enumerate it (a failed `FindFirstFileW`
only bumps `pending_fixes`), lay down the first record, then the rest, and
journal the directory.  The first record's offset goes into the bucket of
`FileHash(std::get<0>(e))`; the model recovers the per-bucket offset lists
from the journal when the indexer runs, which preserves the same per-bucket
contents and order. -/
def stepDir (fs : Fs) (st : BuildSt) (qe : QEnt) : BuildSt :=
  match fsListing fs qe.path with
  | none => { st with pending_fixes := st.pending_fixes + 1 }
  | some (first, rest) =>
    let leaderOff := st.off
    let st1 := emitRec st (entryRec qe.qOff first)
    let st2 := { st1 with all_count := st1.all_count + 1 }
    let st3 := rest.foldl (stepEntry qe) st2
    { st3 with
        procDirs := st3.procDirs ++
          [⟨qe.path, qe.qOff, leaderOff, first :: rest, qe.comps⟩] }

/-- The generation loop `while (pending_dirs.size()) { for (auto& e :
pending_dirs) ...; pending_dirs.swap(found_dirs); found_dirs.clear(); }`,
with fuel bounding the number of generations (`none` when the fuel runs
out with work still pending; any real finite tree empties the queue). -/
def walkLoop (fs : Fs) : Nat → BuildSt → List QEnt → Option BuildSt
  | fuel, st, pending =>
    match pending with
    | [] => some st
    | _ :: _ =>
      match fuel with
      | 0 => none
      | fuel + 1 =>
        let st1 := pending.foldl (stepDir fs) { st with found := [] }
        walkLoop fs fuel st1 st1.found

/-- Emit the zero-terminated chain of one bucket starting at the running
word offset (`bucket_offsets[ix++] = ...; *next_offset = dir; ...;
*next_offset = 0;`). -/
def emitChain (acc : List (Nat × Nat) × Nat) (c : List Nat) :
    List (Nat × Nat) × Nat :=
  let withEntries :=
    c.foldl (fun (a : List (Nat × Nat) × Nat) v => (a.1 ++ [(a.2, v)], a.2 + 4))
      acc
  (withEntries.1 ++ [(withEntries.2, 0)], withEntries.2 + 4)

/-- The synthetic root record: `dwFileAttributes = (DWORD)-1`,
`dwReserved0 = 0`, `cFileName = top_dir` (the full volume path); its
stride is sealed by the first `AdvanceNext`. -/
def rootRecOf (top_dir : List Nat) : FindData :=
  ⟨4294967295, 0, 0, 0, 0, 0, strideOf top_dir, top_dir⟩

/-- The builder state right before the generation loop: the header has
been written (`status = Booting`), the synthetic root record materialised
at `root_offset = sizeof(FFS_Header)`, and the cursor advanced past it. -/
def initSt (top_dir : List Nat) : BuildSt :=
  { off := nextOffset headerSize (rootRecOf top_dir),
    recs := [(headerSize, rootRecOf top_dir)],
    procDirs := [], found := [], all_count := 0, dir_count := 0,
    pending_fixes := 0, reparse_count := 0 }

/-- The chains of all 1543 buckets in emission order. -/
def bucketsOf (pds : List ProcDir) : List (List Nat) :=
  (List.range bucketCount).map (bucketChain pds)

/-- The Indexer and header publication, run on the state the walk
returned: seal the arena (`bytes`, counters, `status = Updating`), write
the `0xAA55AA55` sentinel at `(w32fd + 16) & 0xfffffff0` (the region base
returned by `MapViewOfFile` is 64 KiB-aligned, so the address arithmetic
carries over to offsets: the mask clears the low four bits, i.e.
`(bytes + 16) / 16 * 16`), emit each bucket's zero-terminated chain,
store `dir_offset`, and finally `status = Finished`.  `trace` records the
order of the `status` / `bytes` / `dir_offset` stores
(`FFS_kBooting = 0`, `FFS_kUpdating = 3`, `FFS_kFinished = 4`). -/
def assemble (st : BuildSt) : Region :=
  let bytes := st.off
  let sOff := (bytes + 16) / 16 * 16
  let cw := (bucketsOf st.procDirs).foldl emitChain
    ([(sOff, 0xAA55AA55)], sOff + 4)
  { magic := 0x8855bed, version := 1, status := 4,
    num_nodes := st.all_count, num_dirs := st.dir_count, bytes := bytes,
    dir_offset := cw.2, root_offset := headerSize,
    recs := st.recs, sentinelOff := sOff,
    trace := [Ev.status 0, Ev.bytesField bytes, Ev.status 3,
              Ev.dirOffsetField cw.2, Ev.status 4],
    procDirs := st.procDirs, pending_fixes := st.pending_fixes,
    reparse_count := st.reparse_count }

/-- The words the indexer lays down past the arena: the sentinel at
`sentinelOff`, then each bucket's chain entries and zero terminator, at
consecutive word offsets; the second component is the final cursor, where
the `FFS_Dir` table is placed (`header.dir_offset`). -/
def indexWords (R : Region) : List (Nat × Nat) × Nat :=
  (bucketsOf R.procDirs).foldl emitChain
    ([(R.sentinelOff, 0xAA55AA55)], R.sentinelOff + 4)

/-- `CreateFFS(start, size, top_dir)`: initial state, breadth-first walk,
then indexing and publication. -/
def CreateFFS (fuel : Nat) (fs : Fs) (top_dir : List Nat) : Option Region :=
  match walkLoop fs fuel (initSt top_dir) [⟨top_dir, headerSize, []⟩] with
  | none => none
  | some st => some (assemble st)

/-!  ## The change applier  -/

/-- `UpdateModified(header, oldfd)`: re-runs `FindFirstFileW` on
`oldfd->cFileName` — note, the record's leaf component only, not its full
path — and compares the two last-write-time and the two size fields,
accumulating a bit per differing field in the local `count`.  Nothing is
ever stored back into the record; the model returns the record as the
function leaves it, together with the local `count`. -/
def UpdateModified (oldfd : FindData) (newfd : FsEntry) : FindData × Nat :=
  let c1 := if oldfd.ftLo ≠ newfd.ftLo then 1 else 0
  let c2 := if oldfd.ftHi ≠ newfd.ftHi then 2 else 0
  let c4 := if oldfd.szHi ≠ newfd.szHi then 4 else 0
  let c8 := if oldfd.szLo ≠ newfd.szLo then 8 else 0
  (oldfd, c1 + c2 + c4 + c8)

/-- Store a record back through a pointer into the arena. -/
def setRec (recs : List (Nat × FindData)) (off : Nat) (r : FindData) :
    List (Nat × FindData) :=
  recs.map (fun p => if p.1 == off then (off, r) else p)

/-- One `FILE_NOTIFY_INFORMATION` entry of the delivered batch: the action
code (`FILE_ACTION_ADDED = 1`, `REMOVED = 2`, `MODIFIED = 3`,
`RENAMED_OLD_NAME = 4`, `RENAMED_NEW_NAME = 5`) and the path relative to
the watched root. -/
def ChangeEvent : Type := Nat × List Nat

/-- The `switch (fni->Action)` body for one event.  Only
`FILE_ACTION_MODIFIED` does anything: it calls `UpdateModified` on the
resolved node, whose (absent) effect on the record is stored back through
the node pointer.  `freshOf` supplies the `WIN32_FIND_DATA` that the
re-enumeration inside `UpdateModified` produces for a leaf name.  The
`Added`, `Removed` and `Renamed` arms are empty in the code.  A `Modified`
event whose path does not resolve passes a null pointer into
`UpdateModified` and crashes; the model leaves the region unchanged there. -/
def applyEvent (freshOf : List Nat → FsEntry) (root : List Nat)
    (R : Region) (ev : ChangeEvent) : Region :=
  match ev.1, GetNode R (root ++ ev.2) with
  | 3, some (off, r) =>
      { R with recs := setRec R.recs off (UpdateModified r (freshOf r.name)).1 }
  | _, _ => R

/-- `ChangesCompletionCB`: ignore empty deliveries, set
`status = FFS_kUpdating`, process every event of the batch, and re-arm the
subscription — the code returns without ever storing `FFS_kFinished`
back.  `root` is the static `root` local: the root record's name plus a
trailing backslash. -/
def ChangesCompletionCB (freshOf : List Nat → FsEntry) (R : Region)
    (events : List ChangeEvent) : Region :=
  match events with
  | [] => R
  | (_, nm) :: _ =>
    if nm.isEmpty then R
    else
      let root :=
        (match recAt R.recs R.root_offset with
         | some r => r.name
         | none => []) ++ [bsCU]
      let R1 := { R with status := 3 }
      events.foldl (applyEvent freshOf root) R1

/-!  ## Layout and arena-walk definitions  -/

/-- The status values among the header writes of a trace. -/
def statusWrites (tr : List Ev) : List Nat :=
  tr.filterMap (fun e => match e with | Ev.status s => some s | _ => none)

/-- `offsetsOk recs cur stop`: the records in `recs` are laid out
back-to-back starting at offset `cur` and ending exactly at `stop`, each
with its sealed stride in `dwReserved1`. -/
def offsetsOk : List (Nat × FindData) → Nat → Nat → Bool
  | [], cur, stop => cur == stop
  | (o, r) :: rest, cur, stop =>
    o == cur && r.reserved1 == strideOf r.name &&
      offsetsOk rest (nextOffset cur r) stop

/-- Records laid out back-to-back from `start`, paired with their offsets. -/
def layoutFrom (start : Nat) : List FindData → List (Nat × FindData)
  | [] => []
  | r :: rs => (start, r) :: layoutFrom (nextOffset start r) rs

/-- First offset past records laid out back-to-back from `start`. -/
def layoutEnd (start : Nat) : List FindData → Nat
  | [] => start
  | r :: rs => layoutEnd (nextOffset start r) rs

/-- The arena image of one journalled directory: its listing's records,
each carrying the directory's queued offset in `dwReserved0`, laid out
back-to-back from the first record's offset. -/
def groupPairs (D : ProcDir) : List (Nat × FindData) :=
  layoutFrom D.leaderOff (D.entries.map (entryRec D.qOff))

/-- Walk the arena from `off`, reading each record's `record_stride` to
reach the next, counting records until landing exactly on `stop` (`none`
on a missing record or an overshoot). -/
def countRecords (recs : List (Nat × FindData)) (stop : Nat) :
    Nat → Nat → Option Nat
  | 0, off => if off = stop then some 0 else none
  | fuel + 1, off =>
    if off = stop then some 0
    else
      match recAt recs off with
      | none => none
      | some r => (countRecords recs stop fuel (nextOffset off r)).map (· + 1)

/-- Join a root path and a component list with backslashes. -/
def joinPath (top : List Nat) (comps : List (List Nat)) : List Nat :=
  comps.foldl (fun a c => a ++ bsCU :: c) top

/-- What one entry of directory `qe`, recorded at offset `off`,
contributes to `found_dirs`: nothing for a reparse point, a non-directory
or a filtered name, else its queue entry. -/
def childEnt (qe : QEnt) (off : Nat) (e : FsEntry) : List QEnt :=
  if e.attrs &&& attrReparse ≠ 0 then []
  else if e.attrs &&& attrDirectory ≠ 0 then
    if AddDir e.name then
      [⟨qe.path ++ bsCU :: e.name, off, qe.comps ++ [e.name]⟩]
    else []
  else []

/-- The queue entries the `FindNextFileW` loop appends to `found_dirs`
while processing the post-`"."` entries of directory `qe`, tracking the
offset each entry's record receives. -/
def childrenOf (qe : QEnt) : Nat → List FsEntry → List QEnt
  | _, [] => []
  | off, e :: es =>
    childEnt qe off e ++ childrenOf qe (nextOffset off (entryRec qe.qOff e)) es

/-- Whether an entry is enqueued for further enumeration: not a reparse
point, carries the directory attribute, passes the `AddDir` filter. -/
def entPasses (e : FsEntry) : Bool :=
  decide (e.attrs &&& attrReparse = 0) &&
    decide (e.attrs &&& attrDirectory ≠ 0) && AddDir e.name

/-- Well-formedness of the abstract filesystem — all of it true of a real
Windows enumeration: every listing is non-empty, starts with the `"."`
self-entry (which carries the directory attribute), yields pairwise
distinct names, and yields names that are non-empty, backslash-free and
NUL-free. -/
def WfFs (fs : Fs) : Prop :=
  ∀ pr ∈ fs, pr.2 ≠ [] ∧
    (pr.2.headD default).name = [dotCU] ∧
    (pr.2.headD default).attrs &&& attrDirectory ≠ 0 ∧
    (pr.2.map (·.name)).Nodup ∧
    ∀ e ∈ pr.2, e.name ≠ [] ∧ bsCU ∉ e.name ∧ (0 : Nat) ∉ e.name

/-- The induction invariant of the Walker's generation loop: `st` is the
builder state, `P` the directories still pending in the current
generation, `g` the current generation depth (number of path components
below the top directory). -/
def WalkInv (fs : Fs) (top : List Nat) (st : BuildSt) (P : List QEnt)
    (g : Nat) : Prop :=
  offsetsOk st.recs headerSize st.off = true ∧
  st.all_count + 1 = st.recs.length ∧
  (∀ D ∈ st.procDirs,
    D.path = joinPath top D.comps ∧
    chainNames st.recs (st.recs.length + 1) D.qOff = some (top :: D.comps) ∧
    D.qOff ≠ 0 ∧
    (∃ f r, fsListing fs D.path = some (f, r) ∧ D.entries = f :: r) ∧
    groupPairs D <:+: st.recs ∧
    (∀ c ∈ D.comps, c ≠ [] ∧ bsCU ∉ c) ∧
    D.comps.length ≤ g) ∧
  (∀ qe ∈ P ++ st.found,
    qe.path = joinPath top qe.comps ∧
    chainNames st.recs (st.recs.length + 1) qe.qOff = some (top :: qe.comps) ∧
    qe.qOff ≠ 0 ∧
    (∀ c ∈ qe.comps, c ≠ [] ∧ bsCU ∉ c)) ∧
  (∀ qe ∈ P, qe.comps.length = g) ∧
  (∀ qe ∈ st.found, qe.comps.length = g + 1) ∧
  List.Pairwise (· ≤ ·) (st.procDirs.map (·.comps.length)) ∧
  (st.procDirs.map (·.comps) ++ P.map (·.comps)).Nodup ∧
  (st.found.map (·.comps)).Nodup ∧
  (∀ qe ∈ st.found, ∃ D2 ∈ st.procDirs, ∃ nm,
    qe.comps = D2.comps ++ [nm])

/-!  ## Concrete example inputs for counterexamples and witnesses  -/

/-- The example root directory `"c:\\r"`. -/
def topEx : List Nat := [99, 58, 92, 114]

/-- An example tree: the root contains `"." ".." "a.txt" "D"` (with
`a.txt` of size 4, last-write time lo/hi 100/1), and `c:\r\D` contains
`"." ".." "b.txt"`. -/
def fsEx : Fs :=
  [(topEx,
      [⟨[46], 16, 11, 1, 0, 0⟩,
       ⟨[46, 46], 16, 11, 1, 0, 0⟩,
       ⟨[97, 46, 116, 120, 116], 32, 100, 1, 0, 4⟩,
       ⟨[68], 16, 12, 1, 0, 0⟩]),
   (topEx ++ [92, 68],
      [⟨[46], 16, 12, 1, 0, 0⟩,
       ⟨[46, 46], 16, 12, 1, 0, 0⟩,
       ⟨[98, 46, 116, 120, 116], 32, 101, 1, 0, 7⟩])]

/-- The region built from `fsEx`. -/
def RegionEx : Region := (CreateFFS 5 fsEx topEx).getD default

/-- A tree whose root stores two siblings differing only in letter case:
`"b.txt"` and `"B.txt"`. -/
def fsC10 : Fs :=
  [(topEx,
      [⟨[46], 16, 0, 0, 0, 0⟩,
       ⟨[46, 46], 16, 0, 0, 0, 0⟩,
       ⟨[98, 46, 116, 120, 116], 32, 0, 0, 0, 4⟩,
       ⟨[66, 46, 116, 120, 116], 32, 0, 0, 0, 9⟩])]

/-- The region built from `fsC10`. -/
def RegionC10 : Region := (CreateFFS 5 fsC10 topEx).getD default

/-- Fresh stat data for the modify scenario: on disk, `a.txt` now has size
8 (it was built with size 4); every other name is unchanged. -/
def freshEx : List Nat → FsEntry := fun nm =>
  if nm == [97, 46, 116, 120, 116] then ⟨nm, 32, 100, 1, 0, 8⟩
  else ⟨nm, 32, 0, 0, 0, 0⟩

/-- Fold an ASCII capital letter to lower case, leave everything else. -/
def caseFoldCU (c : Nat) : Nat := if 65 ≤ c ∧ c ≤ 90 then c + 32 else c

/-- Two strings differ at most in ASCII letter case. -/
def sameUpToCase (p q : List Nat) : Prop :=
  p.map caseFoldCU = q.map caseFoldCU

instance (p q : List Nat) : Decidable (sameUpToCase p q) :=
  inferInstanceAs (Decidable (p.map caseFoldCU = q.map caseFoldCU))

end FFS

namespace FFS

/-!  ## Theorems for the standalone claims  -/

theorem hashStep_eq (h b : Nat) :
    hashStep h b = (h ^^^ b) * 16777619 % M32 := by
  unfold hashStep M32
  dsimp only
  omega

/-- C9: the shift-add implementation of the reversed FNV-1a hash agrees with
the reference definition `h = (h XOR byte) * 0x01000193` (32-bit wrapping),
on every byte buffer; in particular both give the same bucket index
modulo 1543. -/
theorem c9_hash_equiv (bytes : List Nat) :
    Hash_FNV1a_32 bytes = fnv1a32ReverseRef bytes ∧
      Hash_FNV1a_32 bytes % 1543 = fnv1a32ReverseRef bytes % 1543 := by
  have h : Hash_FNV1a_32 bytes = fnv1a32ReverseRef bytes := by
    induction bytes with
    | nil => rfl
    | cons b bs ih =>
        simp only [Hash_FNV1a_32, fnv1a32ReverseRef, List.foldr_cons] at *
        rw [ih, hashStep_eq]
  exact ⟨h, by rw [h]⟩

/-- C6 counterexample: `AddDir` rejects the name `"..f"` (code units
`[46, 46, 102]`), although the claim says every name other than `"."` and
`".."` is accepted. -/
theorem c6_addDir_counterexample :
    AddDir [46, 46, 102] = false ∧
      [46, 46, 102] ≠ [dotCU] ∧ [46, 46, 102] ≠ [dotCU, dotCU] := by
  decide

/-- C6 (amended): over NUL-free names, `AddDir` returns `false` exactly for
`"."` and for every name beginning with `".."` (so `".."` itself but also
`"..foo"`); every other name, including ones merely beginning with `"."`,
is accepted. -/
theorem c6_addDir_amended (name : List Nat) (hNul : (0 : Nat) ∉ name) :
    AddDir name = false ↔
      name = [dotCU] ∨ ∃ rest, name = dotCU :: dotCU :: rest := by
  match name with
  | [] => simp [AddDir, dotCU]
  | [c] =>
      constructor
      · intro h
        by_cases hc : c = dotCU
        · exact Or.inl (by rw [hc])
        · simp [AddDir, hc] at h
      · rintro (h | ⟨rest, h⟩)
        · rw [h]; decide
        · simp at h
  | c :: d :: rest =>
      have hd : d ≠ 0 := fun h => hNul (by simp [h])
      constructor
      · intro h
        by_cases hc : c = dotCU
        · by_cases hdd : d = dotCU
          · exact Or.inr ⟨rest, by rw [hc, hdd]⟩
          · simp [AddDir, hc, hd, hdd] at h
        · simp [AddDir, hc] at h
      · rintro (h | ⟨rest', h⟩)
        · simp at h
        · obtain ⟨hc, hdd, -⟩ := by
            simpa using h
          simp [AddDir, hc, hdd, dotCU]

/-- C6 amended-claim witness at the concrete name `".git"`. -/
theorem c6_addDir_amended_witness :
    (0 : Nat) ∉ [46, 103, 105, 116] ∧
      (AddDir [46, 103, 105, 116] = false ↔
        [46, 103, 105, 116] = [dotCU] ∨
          ∃ rest, [46, 103, 105, 116] = dotCU :: dotCU :: rest) :=
  ⟨by decide, c6_addDir_amended [46, 103, 105, 116] (by decide)⟩

/-- C8 counterexample: for the 3-unit name `"abc"` the name's byte length
including the terminator is 8, already a multiple of 8, yet the stored
stride is 16, not 8: the code computes `(len + 8) & ~7`, not
`(len + 7) & ~7`. -/
theorem c8_stride_counterexample :
    strideOf [97, 98, 99] = 16 ∧ strideSpec [97, 98, 99] = 8 ∧
      strideOf [97, 98, 99] ≠ strideSpec [97, 98, 99] := by
  decide

/-- `CreateFFS` succeeds on `fsEx` and produces `RegionEx`.  (The `decide`
only has to run the walk: the option's payload is not evaluated.) -/
theorem regionEx_build : CreateFFS 5 fsEx topEx = some RegionEx := by
  have h : (CreateFFS 5 fsEx topEx).isSome = true := by decide
  unfold RegionEx
  cases ho : CreateFFS 5 fsEx topEx with
  | none => rw [ho] at h; exact absurd h (by simp)
  | some a => rfl

/-- `CreateFFS` succeeds on `fsC10` and produces `RegionC10`. -/
theorem regionC10_build : CreateFFS 5 fsC10 topEx = some RegionC10 := by
  have h : (CreateFFS 5 fsC10 topEx).isSome = true := by decide
  unfold RegionC10
  cases ho : CreateFFS 5 fsC10 topEx with
  | none => rw [ho] at h; exact absurd h (by simp)
  | some a => rfl

/-!  ## Soundness of the resolver: exact code-unit comparison  -/

theorem endsWith_spec {full ending : List Nat}
    (h : EndsWith full ending = true) :
    ending.length ≤ full.length ∧
      full.drop (full.length - ending.length) = ending := by
  unfold EndsWith at h
  split at h
  · exact absurd h (by simp)
  · next hlt => exact ⟨by omega, by simpa using h⟩

theorem endsWith_append (x y : List Nat) : EndsWith (x ++ y) y = true := by
  unfold EndsWith
  rw [if_neg (by simp)]
  simp

theorem matchesDirChain_lax {recs : List (Nat × FindData)} :
    ∀ fuel off path, MatchesDirChain recs fuel off path = true →
      LaxChain recs off path := by
  intro fuel
  induction fuel with
  | zero => intro off path h; simp [MatchesDirChain] at h
  | succ n ih =>
    intro off path h
    unfold MatchesDirChain at h
    split at h
    · exact absurd h (by simp)
    · next r hr =>
      split at h
      · exact absurd h (by simp)
      · next hne =>
        have hew : EndsWith path r.name = true := by
          by_contra hc; exact hne hc
        obtain ⟨hle, hdrop⟩ := endsWith_spec hew
        split at h
        · next h0 =>
          have h0 : r.reserved0 = 0 := by simpa using h0
          have : path = r.name := by simpa using h
          rw [this]
          exact LaxChain.root off r hr h0
        · next h0 =>
          have h0 : r.reserved0 ≠ 0 := by simpa using h0
          by_cases hlen : path.length = r.name.length
          · rw [if_pos hlen] at h
            have hpn : path = r.name := by
              have := hdrop
              rw [hlen, Nat.sub_self, List.drop_zero] at this
              exact this
            have := ih _ _ h
            rw [hpn] at this ⊢
            exact LaxChain.stay off r hr h0 this
          · rw [if_neg hlen] at h
            have hd1 : path.length - r.name.length - 1 < path.length := by
              omega
            have hsplit :
                path = path.take (path.length - r.name.length - 1) ++
                  path.get ⟨path.length - r.name.length - 1, hd1⟩ ::
                    r.name := by
              conv_lhs => rw [← List.take_append_drop
                (path.length - r.name.length - 1) path]
              rw [List.drop_eq_getElem_cons hd1]
              have : path.length - r.name.length - 1 + 1 =
                  path.length - r.name.length := by omega
              rw [this, hdrop]
              rfl
            have := ih _ _ h
            rw [hsplit]
            exact LaxChain.step off r _ _ hr h0 this

theorem chainScan_sound {recs : List (Nat × FindData)} {fuel : Nat}
    {path : List Nat} :
    ∀ chain off, chainScan recs fuel path chain = some off →
      ∃ r, recAt recs off = some r ∧
        MatchesDirChain recs fuel r.reserved0 path = true := by
  intro chain
  induction chain with
  | nil => intro off h; simp [chainScan] at h
  | cons o rest ih =>
    intro off h
    unfold chainScan at h
    split at h
    · exact absurd h (by simp)
    · next r hr =>
      split at h
      · exact absurd h (by simp)
      · split at h
        · next hm =>
          obtain rfl : o = off := by simpa using h
          exact ⟨r, hr, hm⟩
        · exact ih off h

theorem getLeafAux_sound {recs : List (Nat × FindData)} {gid : Nat}
    {leaf : List Nat} :
    ∀ fuel off o r, GetLeafAux recs gid leaf fuel off = some (o, r) →
      r.reserved0 = gid ∧ r.name = leaf ∧ recAt recs o = some r := by
  intro fuel
  induction fuel with
  | zero => intro off o r h; simp [GetLeafAux] at h
  | succ n ih =>
    intro off o r h
    unfold GetLeafAux at h
    split at h
    · exact absurd h (by simp)
    · next r0 hr =>
      split at h
      · exact absurd h (by simp)
      · next hg =>
        have hg : r0.reserved0 = gid := by
          by_contra hc; exact hg hc
        split at h
        · next hn =>
          obtain ⟨rfl, rfl⟩ : off = o ∧ r0 = r := by
            simpa using h
          exact ⟨hg, (beq_iff_eq.mp hn).symm, hr⟩
        · exact ih _ o r h

theorem rfindBS_spec : ∀ {p : List Nat} {i : Nat}, rfindBS p = some i →
    i < p.length ∧ p.getD i 0 = bsCU := by
  intro p
  induction p with
  | nil => intro i h; simp [rfindBS] at h
  | cons c rest ih =>
    intro i h
    unfold rfindBS at h
    cases hj : rfindBS rest with
    | some j =>
      rw [hj] at h
      obtain rfl : j + 1 = i := by simpa using h
      obtain ⟨hlt, hbs⟩ := ih hj
      exact ⟨by simpa using hlt, by simpa using hbs⟩
    | none =>
      rw [hj] at h
      by_cases hc : (c == bsCU) = true
      · rw [if_pos hc] at h
        obtain rfl : (0 : Nat) = i := by simpa using h
        exact ⟨by simp, by simpa using beq_iff_eq.mp hc⟩
      · rw [if_neg hc] at h; exact absurd h (by simp)

/-- C10 (amended): path resolution compares the query against stored name
fields by exact UTF-16 code-unit equality and never folds letter case:
whenever `resolve_any` (`GetNode`) returns a record for a query not ending
in a backslash, the query splits at its last backslash into a directory
part and a leaf, the returned record's `name` equals the leaf exactly, and
the directory part matches the record's parent chain with every component
and the root compared by exact code-unit equality (only the one query
character in front of each matched component — the separator slot — is not
compared, and the corner where a component equals the whole remaining query
passes it up unchanged).  Consequently a query that differs from a stored
path only in letter case resolves only if some stored record's chain
matches the variant exactly — e.g. a sibling stored under the other case,
as in the counterexample — and returns `none` otherwise. -/
theorem c10_resolution_exact (R : Region) (q : List Nat) (off : Nat)
    (r : FindData) (hq : q.getLast? ≠ some bsCU)
    (h : GetNode R q = some (off, r)) :
    ∃ i, i < q.length ∧ q.getD i 0 = bsCU ∧ r.name = q.drop (i + 1) ∧
      LaxChain R.recs r.reserved0 (q.take i) ∧ recAt R.recs off = some r := by
  unfold GetNode at h
  split at h
  · exact absurd h (by simp)
  · split at h
    · exact absurd h (by simp)
    · split at h
      · next hlast => exact absurd (by simpa using hlast) hq
      · split at h
        · exact absurd h (by simp)
        · next i hfind =>
          split at h
          · exact absurd h (by simp)
          · next dOff hdir =>
            split at h
            · exact absurd h (by simp)
            · next d hd =>
              split at h
              · exact absurd h (by simp)
              · obtain ⟨hi, hbs⟩ := rfindBS_spec hfind
                unfold GetDirectory at hdir
                split at hdir
                · exact absurd hdir (by simp)
                · obtain ⟨rd, hrd, hm⟩ := chainScan_sound _ _ hdir
                  obtain rfl : rd = d := by
                    rw [hd] at hrd; exact (Option.some.inj hrd).symm
                  unfold GetLeaf at h
                  obtain ⟨hr0, hrname, hroff⟩ := getLeafAux_sound _ _ _ _ h
                  refine ⟨i, hi, hbs, hrname, ?_, hroff⟩
                  rw [hr0]
                  exact matchesDirChain_lax _ _ _ hm

/-- C10 counterexample: with the siblings `b.txt` and `B.txt` both stored
under the root, the query `c:\r\B.txt` differs from the stored path
`c:\r\b.txt` only in letter case and is not equal to it, yet `resolve_any`
does not return `none` — it returns the record stored under the other
case.  (The claim asserts the case-variant query returns `none`.) -/
theorem c10_case_counterexample :
    CreateFFS 5 fsC10 topEx = some RegionC10 ∧
      (GetNode RegionC10
          (topEx ++ [92, 98, 46, 116, 120, 116])).map (fun p => p.2.name) =
        some [98, 46, 116, 120, 116] ∧
      sameUpToCase (topEx ++ [92, 66, 46, 116, 120, 116])
        (topEx ++ [92, 98, 46, 116, 120, 116]) ∧
      topEx ++ [92, 66, 46, 116, 120, 116] ≠
        topEx ++ [92, 98, 46, 116, 120, 116] ∧
      GetNode RegionC10 (topEx ++ [92, 66, 46, 116, 120, 116]) ≠ none :=
  ⟨regionC10_build, by decide, by decide, by decide, by decide⟩

/-- Witness for the amended C10 theorem at the concrete region built from
`fsC10` and the query `c:\r\B.txt`. -/
theorem c10_resolution_exact_witness :
    ∃ i, i < (topEx ++ [92, 66, 46, 116, 120, 116]).length ∧
      (topEx ++ [92, 66, 46, 116, 120, 116]).getD i 0 = bsCU ∧
      (⟨32, 0, 0, 0, 9, 32, 16, [66, 46, 116, 120, 116]⟩ : FindData).name =
        (topEx ++ [92, 66, 46, 116, 120, 116]).drop (i + 1) ∧
      LaxChain RegionC10.recs
        (⟨32, 0, 0, 0, 9, 32, 16, [66, 46, 116, 120, 116]⟩ : FindData).reserved0
        ((topEx ++ [92, 66, 46, 116, 120, 116]).take i) ∧
      recAt RegionC10.recs 256 =
        some ⟨32, 0, 0, 0, 9, 32, 16, [66, 46, 116, 120, 116]⟩ :=
  c10_resolution_exact RegionC10 (topEx ++ [92, 66, 46, 116, 120, 116]) 256
    ⟨32, 0, 0, 0, 9, 32, 16, [66, 46, 116, 120, 116]⟩ (by decide) (by decide)

/-- C4 counterexample: on the concrete build from `fsEx` the sequence of
values stored to `header.status` is Booting (0), Updating (3),
Finished (4) — `FFS_kInProgress` (1) is never written, so the status word
does not take the four claimed values. -/
theorem c4_status_counterexample :
    CreateFFS 5 fsEx topEx = some RegionEx ∧
      statusWrites RegionEx.trace = [0, 3, 4] ∧
      statusWrites RegionEx.trace ≠ [0, 1, 3, 4] :=
  ⟨regionEx_build, by decide, by decide⟩

/-- C4 (amended): during every build that completes, the header status
word takes the values Booting (0), Updating (3), Finished (4) in that
order and no others — `InProgress` is never stored.  `Updating` is stored
after the arena is sealed (after the `header.bytes` store) and before the
index is installed, and `Finished` only after `header.dir_offset` has been
written. -/
theorem c4_status_order (fuel : Nat) (fs : Fs) (top : List Nat) (R : Region)
    (hb : CreateFFS fuel fs top = some R) :
    R.trace = [Ev.status 0, Ev.bytesField R.bytes, Ev.status 3,
               Ev.dirOffsetField R.dir_offset, Ev.status 4] ∧
      statusWrites R.trace = [0, 3, 4] := by
  unfold CreateFFS at hb
  split at hb
  · exact absurd hb (by simp)
  · obtain rfl := Option.some.inj hb
    exact ⟨rfl, rfl⟩

/-- Witness for the amended C4 theorem at the concrete build from `fsEx`. -/
theorem c4_status_order_witness :
    RegionEx.trace = [Ev.status 0, Ev.bytesField RegionEx.bytes, Ev.status 3,
        Ev.dirOffsetField RegionEx.dir_offset, Ev.status 4] ∧
      statusWrites RegionEx.trace = [0, 3, 4] :=
  c4_status_order 5 fsEx topEx RegionEx regionEx_build

/-- C2: the `Modified` handler is a no-op on the region.  In the concrete
scenario, `a.txt` was built with size 4, its size on disk changed to 8
(`freshEx`), and a `FILE_ACTION_MODIFIED` event for it was delivered; the
code re-enumerates and computes which fields differ (the local `count`
comes out 8: only the size-low field changed), but never stores the fresh
values, so the subsequent `resolve_any` still returns size 4, not the new
size 8 the claim promises. -/
theorem c2_modified_update_lost :
    (GetNode (ChangesCompletionCB freshEx RegionEx
          [(3, [97, 46, 116, 120, 116])])
        (topEx ++ [92, 97, 46, 116, 120, 116])).map (fun p => p.2.szLo) =
      some 4 ∧
      (freshEx [97, 46, 116, 120, 116]).szLo = 8 ∧
      (UpdateModified ⟨32, 100, 1, 0, 4, 32, 16, [97, 46, 116, 120, 116]⟩
          (freshEx [97, 46, 116, 120, 116])).2 = 8 ∧
      (UpdateModified ⟨32, 100, 1, 0, 4, 32, 16, [97, 46, 116, 120, 116]⟩
          (freshEx [97, 46, 116, 120, 116])).1.szLo = 4 := by
  refine ⟨by decide, by decide, by decide, by decide⟩

/-- C3: after the Change Applier processes a non-empty batch, the status
word has been set to Updating (3) before the first event was applied, but
it is **never** set back to Finished (4): the callback re-arms the
subscription and returns with `status = Updating`. -/
theorem c3_status_not_restored (freshOf : List Nat → FsEntry) (R : Region)
    (a : Nat) (nm : List Nat) (rest : List ChangeEvent) (hnm : nm ≠ []) :
    (ChangesCompletionCB freshOf R ((a, nm) :: rest)).status = 3 ∧
      (ChangesCompletionCB freshOf R ((a, nm) :: rest)).status ≠ 4 := by
  have hfold : ∀ (evs : List ChangeEvent) (root : List Nat) (S : Region),
      (evs.foldl (applyEvent freshOf root) S).status = S.status := by
    intro evs
    induction evs with
    | nil => intro root S; rfl
    | cons e es ih =>
      intro root S
      rw [List.foldl_cons, ih]
      unfold applyEvent
      split <;> rfl
  have hmain :
      (ChangesCompletionCB freshOf R ((a, nm) :: rest)).status = 3 := by
    unfold ChangesCompletionCB
    dsimp only
    rw [if_neg (by simpa using hnm)]
    exact hfold _ _ _
  exact ⟨hmain, by rw [hmain]; decide⟩

/-- Witness for the C3 theorem at the concrete modify scenario. -/
theorem c3_status_not_restored_witness :
    (ChangesCompletionCB freshEx RegionEx
        ((3, [97, 46, 116, 120, 116]) :: [])).status = 3 ∧
      (ChangesCompletionCB freshEx RegionEx
          ((3, [97, 46, 116, 120, 116]) :: [])).status ≠ 4 :=
  c3_status_not_restored freshEx RegionEx 3 [97, 46, 116, 120, 116] []
    (by decide)

/-- C7 counterexample: on the concrete build from `fsEx`, walking the
records between the end of the header and `header.bytes` by
`record_stride` counts 8 records (the synthetic root plus 7 enumerated
entries), while `header.num_nodes` is 7: the synthetic root is **not**
included in the count. -/
theorem c7_count_counterexample :
    CreateFFS 5 fsEx topEx = some RegionEx ∧
      countRecords RegionEx.recs RegionEx.bytes RegionEx.recs.length
          headerSize = some 8 ∧
      RegionEx.num_nodes = 7 ∧
      countRecords RegionEx.recs RegionEx.bytes RegionEx.recs.length
          headerSize ≠ some RegionEx.num_nodes :=
  ⟨regionEx_build, by decide, by decide, by decide⟩

/-- C8 (amended): for every sealed record the stored `record_stride` equals
the smallest multiple of 8 strictly greater than the name's byte length
(terminator included): `8 * (len / 8) + 8`.  When the length is not a
multiple of 8 this is the usual rounding up, but when it is already a
multiple of 8 an extra 8 bytes of padding are added. -/
theorem c8_stride_amended (name : List Nat) :
    strideOf name = 8 * ((name.length + 1) * 2 / 8) + 8 := by
  unfold strideOf
  omega

/-!  ## Arena layout lemmas  -/

theorem strideOf_pos (name : List Nat) : 8 ≤ strideOf name := by
  unfold strideOf; omega

theorem nextOffset_gt (off : Nat) (r : FindData) : off < nextOffset off r := by
  unfold nextOffset namePos; omega

theorem offsetsOk_le {recs : List (Nat × FindData)} :
    ∀ {cur stop}, offsetsOk recs cur stop = true → cur ≤ stop := by
  induction recs with
  | nil => intro cur stop h; simp only [offsetsOk, beq_iff_eq] at h; omega
  | cons q rest ih =>
    intro cur stop h
    obtain ⟨o, r⟩ := q
    simp only [offsetsOk, Bool.and_eq_true, beq_iff_eq] at h
    have h1 := ih h.2
    have h2 := nextOffset_gt cur r
    omega

theorem offsetsOk_bounds {recs : List (Nat × FindData)} :
    ∀ {cur stop}, offsetsOk recs cur stop = true →
      ∀ p ∈ recs, cur ≤ p.1 ∧ p.1 < stop := by
  induction recs with
  | nil => intro cur stop h p hp; simp at hp
  | cons q rest ih =>
    intro cur stop h p hp
    obtain ⟨o, r⟩ := q
    simp only [offsetsOk, Bool.and_eq_true, beq_iff_eq] at h
    obtain ⟨⟨ho, hs⟩, hrest⟩ := h
    rcases List.mem_cons.mp hp with hp | hp
    · subst hp
      have h1 := offsetsOk_le hrest
      have h2 := nextOffset_gt cur r
      exact ⟨by omega, by omega⟩
    · have h3 := ih hrest p hp
      have h2 := nextOffset_gt cur r
      exact ⟨by omega, h3.2⟩

theorem offsetsOk_recAt {recs : List (Nat × FindData)} :
    ∀ {cur stop}, offsetsOk recs cur stop = true →
      ∀ p ∈ recs, recAt recs p.1 = some p.2 := by
  induction recs with
  | nil => intro _ _ _ p hp; simp at hp
  | cons q rest ih =>
    intro cur stop h p hp
    obtain ⟨o, r⟩ := q
    simp only [offsetsOk, Bool.and_eq_true, beq_iff_eq] at h
    obtain ⟨⟨ho, hs⟩, hrest⟩ := h
    rcases List.mem_cons.mp hp with hp | hp
    · subst hp
      unfold recAt
      rw [List.find?_cons_of_pos _ (by simp)]
      rfl
    · have hb := offsetsOk_bounds hrest p hp
      have hneq : o ≠ p.1 := by
        have := nextOffset_gt cur r
        omega
      unfold recAt
      rw [List.find?_cons_of_neg _ (by simpa using hneq)]
      exact ih hrest p hp

theorem offsetsOk_append {xs : List (Nat × FindData)} :
    ∀ {ys : List (Nat × FindData)} {cur stop},
      offsetsOk (xs ++ ys) cur stop = true →
      ∃ mid, offsetsOk xs cur mid = true ∧ offsetsOk ys mid stop = true := by
  induction xs with
  | nil =>
    intro ys cur stop h
    exact ⟨cur, by simp [offsetsOk], h⟩
  | cons q rest ih =>
    intro ys cur stop h
    obtain ⟨o, r⟩ := q
    simp only [List.cons_append, offsetsOk, Bool.and_eq_true, beq_iff_eq] at h
    obtain ⟨⟨ho, hs⟩, hrest⟩ := h
    obtain ⟨mid, h1, h2⟩ := ih hrest
    refine ⟨mid, ?_, h2⟩
    simp only [offsetsOk, Bool.and_eq_true, beq_iff_eq]
    exact ⟨⟨ho, hs⟩, h1⟩

theorem offsetsOk_snoc {r : FindData} {recs : List (Nat × FindData)} :
    ∀ {cur stop}, offsetsOk recs cur stop = true →
      r.reserved1 = strideOf r.name →
      offsetsOk (recs ++ [(stop, r)]) cur (nextOffset stop r) = true := by
  induction recs with
  | nil =>
    intro cur stop h hr
    have : cur = stop := by simpa [offsetsOk] using h
    subst this
    simp [offsetsOk, hr]
  | cons q rest ih =>
    intro cur stop h hr
    obtain ⟨o, rr⟩ := q
    simp only [offsetsOk, Bool.and_eq_true, beq_iff_eq] at h
    obtain ⟨⟨ho, hs⟩, hrest⟩ := h
    simp only [List.cons_append, offsetsOk, Bool.and_eq_true, beq_iff_eq]
    exact ⟨⟨ho, hs⟩, ih hrest hr⟩

theorem offsetsOk_layoutFrom :
    ∀ (rs : List FindData) (start : Nat),
      (∀ r ∈ rs, r.reserved1 = strideOf r.name) →
      offsetsOk (layoutFrom start rs) start (layoutEnd start rs) = true := by
  intro rs
  induction rs with
  | nil => intro start _; simp [layoutFrom, layoutEnd, offsetsOk]
  | cons r rest ih =>
    intro start hs
    simp only [layoutFrom, layoutEnd, offsetsOk, Bool.and_eq_true, beq_iff_eq]
    refine ⟨⟨by simp, hs r (by simp)⟩,
      ih (nextOffset start r) (fun x hx => hs x (by simp [hx]))⟩

theorem countRecords_of_offsetsOk {full : List (Nat × FindData)} :
    ∀ (sub : List (Nat × FindData)) {start stop : Nat},
      offsetsOk sub start stop = true →
      (∀ p ∈ sub, recAt full p.1 = some p.2) →
      ∀ fuel, sub.length ≤ fuel →
        countRecords full stop fuel start = some sub.length := by
  intro sub
  induction sub with
  | nil =>
    intro start stop h _ fuel _
    have : start = stop := by simpa [offsetsOk] using h
    subst this
    cases fuel <;> simp [countRecords]
  | cons q rest ih =>
    intro start stop h hmem fuel hfuel
    obtain ⟨o, r⟩ := q
    simp only [offsetsOk, Bool.and_eq_true, beq_iff_eq] at h
    obtain ⟨⟨ho, hs⟩, hrest⟩ := h
    subst ho
    have hlt : o < stop := by
      have h1 := offsetsOk_le hrest
      have h2 := nextOffset_gt o r
      omega
    obtain ⟨f, rfl⟩ : ∃ f, fuel = f + 1 :=
      ⟨fuel - 1, by simp at hfuel; omega⟩
    unfold countRecords
    rw [if_neg (by omega)]
    have hra : recAt full o = some r := by
      have := hmem (o, r) (by simp)
      simpa using this
    have hrec := ih hrest
      (fun p hp => hmem p (by simp [hp])) f (by simp at hfuel; omega)
    simp [hra, hrec]

/-!  ## Parent-chain walk lemmas  -/

theorem recAt_append {recs ext : List (Nat × FindData)} {off : Nat}
    {r : FindData} (h : recAt recs off = some r) :
    recAt (recs ++ ext) off = some r := by
  unfold recAt at *
  rw [List.find?_append]
  cases hf : recs.find? (fun p => p.1 == off) with
  | none => rw [hf] at h; exact absurd h (by simp)
  | some p => rw [hf] at h; simpa using h

theorem chainNames_ne_nil {recs : List (Nat × FindData)} :
    ∀ {F off l}, chainNames recs F off = some l → l ≠ [] ∧ l.length ≤ F := by
  intro F
  induction F with
  | zero => intro off l h; simp [chainNames] at h
  | succ n ih =>
    intro off l h
    unfold chainNames at h
    split at h
    · exact absurd h (by simp)
    · next r hr =>
      split at h
      · obtain rfl : [r.name] = l := by simpa using h
        exact ⟨by simp, by simp⟩
      · cases hc : chainNames recs n r.reserved0 with
        | none => rw [hc] at h; exact absurd h (by simp)
        | some l0 =>
          rw [hc] at h
          obtain rfl : l0 ++ [r.name] = l := by simpa using h
          have := (ih hc).2
          exact ⟨by simp, by simp; omega⟩

theorem chainNames_fuel {recs : List (Nat × FindData)} :
    ∀ {F off l}, chainNames recs F off = some l →
      ∀ {F2}, l.length ≤ F2 → chainNames recs F2 off = some l := by
  intro F
  induction F with
  | zero => intro off l h; simp [chainNames] at h
  | succ n ih =>
    intro off l h F2 hF2
    unfold chainNames at h
    split at h
    · exact absurd h (by simp)
    · next r hr =>
      split at h
      · next h0 =>
        obtain rfl : [r.name] = l := by simpa using h
        obtain ⟨F3, rfl⟩ : ∃ f, F2 = f + 1 := ⟨F2 - 1, by simp at hF2; omega⟩
        unfold chainNames
        simp only [hr]
        rw [if_pos h0]
      · next h0 =>
        cases hc : chainNames recs n r.reserved0 with
        | none => rw [hc] at h; exact absurd h (by simp)
        | some l0 =>
          rw [hc] at h
          obtain rfl : l0 ++ [r.name] = l := by simpa using h
          have hl0 := (chainNames_ne_nil hc).1
          obtain ⟨F3, rfl⟩ : ∃ f, F2 = f + 1 :=
            ⟨F2 - 1, by simp at hF2; omega⟩
          have : chainNames recs F3 r.reserved0 = some l0 :=
            ih hc (by simp at hF2; omega)
          unfold chainNames
          simp only [hr]
          rw [if_neg h0, this]
          rfl

theorem chainNames_append {recs ext : List (Nat × FindData)} :
    ∀ {F off l}, chainNames recs F off = some l →
      chainNames (recs ++ ext) F off = some l := by
  intro F
  induction F with
  | zero => intro off l h; simp [chainNames] at h
  | succ n ih =>
    intro off l h
    unfold chainNames at h ⊢
    split at h
    · exact absurd h (by simp)
    · next r hr =>
      simp only [recAt_append hr]
      split at h
      · next h0 => rw [if_pos h0]; exact h
      · next h0 =>
        rw [if_neg h0]
        cases hc : chainNames recs n r.reserved0 with
        | none => rw [hc] at h; exact absurd h (by simp)
        | some l0 =>
          rw [hc] at h
          rw [ih hc]
          exact h

/-!  ## Path joining  -/

theorem joinPath_snoc (top : List Nat) (cs : List (List Nat)) (c : List Nat) :
    joinPath top (cs ++ [c]) = joinPath top cs ++ bsCU :: c := by
  simp [joinPath]

theorem joinPath_cons (top : List Nat) (c : List Nat) (cs : List (List Nat)) :
    joinPath top (c :: cs) = joinPath (top ++ bsCU :: c) cs := rfl

theorem joinPath_prefix :
    ∀ (cs : List (List Nat)) (top : List Nat),
      ∃ s, joinPath top cs = top ++ s := by
  intro cs
  induction cs with
  | nil => intro top; exact ⟨[], by simp [joinPath]⟩
  | cons c cs ih =>
    intro top
    obtain ⟨s, hs⟩ := ih (top ++ bsCU :: c)
    exact ⟨bsCU :: c ++ s, by rw [joinPath_cons, hs]; simp⟩

theorem joinPath_length :
    ∀ (cs : List (List Nat)) (top : List Nat),
      (joinPath top cs).length =
        top.length + cs.length + (cs.map List.length).sum := by
  intro cs
  induction cs with
  | nil => intro top; simp [joinPath]
  | cons c cs ih =>
    intro top
    rw [joinPath_cons, ih]
    simp
    omega

theorem reconstruct_of_chainNames {recs : List (Nat × FindData)} :
    ∀ {F off t cs}, chainNames recs F off = some (t :: cs) →
      ∀ {F2}, cs.length + 1 ≤ F2 →
        reconstruct recs F2 off = some (joinPath t cs) := by
  intro F
  induction F with
  | zero => intro off t cs h; simp [chainNames] at h
  | succ n ih =>
    intro off t cs h F2 hF2
    unfold chainNames at h
    split at h
    · exact absurd h (by simp)
    · next r hr =>
      split at h
      · next h0 =>
        obtain ⟨rfl, rfl⟩ : r.name = t ∧ ([] : List (List Nat)) = cs := by
          have h2 := Option.some.inj h
          simpa [List.cons.injEq] using h2
        obtain ⟨F3, rfl⟩ : ∃ f, F2 = f + 1 := ⟨F2 - 1, by omega⟩
        unfold reconstruct
        simp only [hr]
        rw [if_pos h0]
        rfl
      · next h0 =>
        cases hc : chainNames recs n r.reserved0 with
        | none => rw [hc] at h; exact absurd h (by simp)
        | some l0 =>
          rw [hc] at h
          have hl : l0 ++ [r.name] = t :: cs := by simpa using h
          have hl0ne := (chainNames_ne_nil hc).1
          obtain ⟨t0, cs0, rfl⟩ : ∃ a as, l0 = a :: as :=
            ⟨l0.head hl0ne, l0.tail, (List.head_cons_tail _ _).symm⟩
          simp only [List.cons_append, List.cons.injEq] at hl
          obtain ⟨rfl, rfl⟩ := hl
          obtain ⟨F3, rfl⟩ : ∃ f, F2 = f + 1 := ⟨F2 - 1, by omega⟩
          unfold reconstruct
          simp only [hr]
          rw [if_neg h0]
          have : reconstruct recs F3 r.reserved0 = some (joinPath t0 cs0) :=
            ih hc (by simp at hF2; omega)
          rw [this, joinPath_snoc]
          rfl

/-!  ## Destructuring a parent chain  -/

theorem chainNames_root {recs : List (Nat × FindData)} {F off : Nat}
    {l : List (List Nat)} {top : List Nat} {r : FindData}
    (h : chainNames recs F off = some (top :: l))
    (hr : recAt recs off = some r) (h0 : r.reserved0 = 0) :
    r.name = top ∧ l = [] := by
  cases F with
  | zero => simp [chainNames] at h
  | succ n =>
    unfold chainNames at h
    split at h
    · exact absurd h (by simp)
    · next r2 hr2 =>
      rw [hr] at hr2
      obtain rfl := Option.some.inj hr2
      split at h
      · have h2 := Option.some.inj h
        constructor
        · exact (List.cons.injEq _ _ _ _ ▸ h2).1
        · exact ((List.cons.injEq _ _ _ _ ▸ h2).2).symm
      · next hh => exact absurd h0 hh

theorem chainNames_parent {recs : List (Nat × FindData)} {F off : Nat}
    {l : List (List Nat)} {top : List Nat} {r : FindData}
    (h : chainNames recs F off = some (top :: l))
    (hr : recAt recs off = some r) (h0 : r.reserved0 ≠ 0) :
    ∃ F2 l2, chainNames recs F2 r.reserved0 = some (top :: l2) ∧
      l = l2 ++ [r.name] := by
  cases F with
  | zero => simp [chainNames] at h
  | succ n =>
    unfold chainNames at h
    split at h
    · exact absurd h (by simp)
    · next r2 hr2 =>
      rw [hr] at hr2
      obtain rfl := Option.some.inj hr2
      split at h
      · next hh => exact absurd hh h0
      · cases hc : chainNames recs n r.reserved0 with
        | none => rw [hc] at h; exact absurd h (by simp)
        | some l0 =>
          rw [hc] at h
          have hl : l0 ++ [r.name] = top :: l := by simpa using h
          have hl0 := (chainNames_ne_nil hc).1
          obtain ⟨t0, cs0, rfl⟩ : ∃ a as, l0 = a :: as :=
            ⟨l0.head hl0, l0.tail, (List.head_cons_tail _ _).symm⟩
          simp only [List.cons_append, List.cons.injEq] at hl
          obtain ⟨rfl, rfl⟩ := hl
          exact ⟨n, cs0, hc, rfl⟩

/-- Every query a lax chain match accepts extends the synthetic root's
name, i.e. starts with the full root path. -/
theorem laxChain_top_prefix {recs : List (Nat × FindData)} {top : List Nat} :
    ∀ {off p}, LaxChain recs off p →
      ∀ {F l}, chainNames recs F off = some (top :: l) →
        ∃ s, p = top ++ s := by
  intro off p hlax
  induction hlax with
  | root o r hr h0 =>
    intro F l h
    obtain ⟨h1, -⟩ := chainNames_root h hr h0
    exact ⟨[], by simp [h1]⟩
  | step o r q c hr h0 hsub ih =>
    intro F l h
    obtain ⟨F2, l2, hc, -⟩ := chainNames_parent h hr h0
    obtain ⟨s, hs⟩ := ih hc
    exact ⟨s ++ c :: r.name, by rw [hs]; simp⟩
  | stay o r hr h0 hsub ih =>
    intro F l h
    obtain ⟨F2, l2, hc, -⟩ := chainNames_parent h hr h0
    exact ih hc

/-- The pigeonhole behind bucket-scan correctness: if a query that is the
strict backslash-join of `l` over `top` lax-matches a stored chain whose
components are `l2`, then the stored chain is at least as deep as the
query, and at equal depth the component lists coincide.  (All components
are backslash-free; the root path contains a backslash.) -/
theorem laxChain_depth {recs : List (Nat × FindData)} {top : List Nat}
    (htop : bsCU ∈ top) :
    ∀ {off p}, LaxChain recs off p →
      ∀ {F : Nat} {l2 l : List (List Nat)},
        chainNames recs F off = some (top :: l2) →
        (∀ c ∈ l2, bsCU ∉ c) → (∀ c ∈ l, bsCU ∉ c) →
        p = joinPath top l →
        l.length ≤ l2.length ∧ (l2.length = l.length → l2 = l) := by
  intro off p hlax
  induction hlax with
  | root o r hr h0 =>
    intro F l2 l h hbs2 hbsl hp
    obtain ⟨h1, rfl⟩ := chainNames_root h hr h0
    have hlth := congrArg List.length hp
    rw [joinPath_length] at hlth
    have h2 : r.name.length = top.length := by rw [h1]
    have hl0 : l = [] := by
      have : l.length = 0 := by omega
      exact List.length_eq_zero.mp this
    subst hl0
    exact ⟨Nat.le_refl _, fun _ => rfl⟩
  | stay o r hr h0 hsub ih =>
    intro F l2 l h hbs2 hbsl hp
    obtain ⟨F2, l2p, hc, rfl⟩ := chainNames_parent h hr h0
    obtain ⟨s, hs⟩ := laxChain_top_prefix hsub hc
    have hbsname : bsCU ∉ r.name := hbs2 r.name (by simp)
    exact absurd (by rw [hs]; exact List.mem_append_left _ htop) hbsname
  | step o r q c hr h0 hsub ih =>
    intro F l2 l h hbs2 hbsl hp
    obtain ⟨F2, l2p, hc, rfl⟩ := chainNames_parent h hr h0
    have hbsnk : bsCU ∉ r.name := hbs2 r.name (by simp)
    rcases List.eq_nil_or_concat l with rfl | ⟨init, nl, rfl⟩
    · obtain ⟨s, hs⟩ := laxChain_top_prefix hsub hc
      have h1 := congrArg List.length hp
      have h2 := congrArg List.length hs
      simp [joinPath] at h1
      simp at h2
      omega
    · simp only [List.concat_eq_append] at hbsl hp ⊢
      rw [joinPath_snoc] at hp
      have hbsnl : bsCU ∉ nl := hbsl nl (by simp)
      have hbsinit : ∀ cc ∈ init, bsCU ∉ cc := fun cc hcc =>
        hbsl cc (by simp [hcc])
      have hbsl2p : ∀ cc ∈ l2p, bsCU ∉ cc := fun cc hcc =>
        hbs2 cc (by simp [hcc])
      have hlen := congrArg List.length hp
      simp only [List.length_append, List.length_cons] at hlen
      have hnk : (q ++ c :: r.name).drop (q.length + 1) = r.name := by
        have := @List.drop_append Nat q (c :: r.name) 1
        simpa using this
      rcases Nat.lt_trichotomy r.name.length nl.length with hlt | heq | hgt
      · -- the component consumed is shorter: the last query component
        -- splits; recurse with a shortened last component
        have hq : q = joinPath top init ++ bsCU ::
            nl.take (nl.length - r.name.length - 1) := by
          have h1 : (q ++ c :: r.name).take q.length = q :=
            List.take_left q (c :: r.name)
          rw [hp] at h1
          have h2 : q.length = (joinPath top init).length +
              (1 + (nl.length - r.name.length - 1)) := by omega
          rw [h2, List.take_append] at h1
          have h3 : (bsCU :: nl).take (1 + (nl.length - r.name.length - 1)) =
              bsCU :: nl.take (nl.length - r.name.length - 1) := by
            rw [Nat.add_comm]
            rfl
          rw [h3] at h1
          exact h1.symm
        have hq2 : q = joinPath top
            (init ++ [nl.take (nl.length - r.name.length - 1)]) := by
          rw [joinPath_snoc]; exact hq
        have hih := ih hc hbsl2p
          (fun cc hcc => by
            rcases List.mem_append.mp hcc with hcc | hcc
            · exact hbsinit cc hcc
            · have : cc = nl.take (nl.length - r.name.length - 1) := by
                simpa using hcc
              rw [this]
              exact fun hm => hbsnl (List.take_subset _ _ hm))
          hq2
        constructor
        · simp only [List.length_append, List.length_singleton]
          have := hih.1
          simp only [List.length_append, List.length_singleton] at this
          omega
        · intro he
          simp only [List.length_append, List.length_singleton] at he
          have := hih.1
          simp only [List.length_append, List.length_singleton] at this
          omega
      · -- equal lengths: same component, recurse one level up
        have hnl : (joinPath top init ++ bsCU :: nl).drop (q.length + 1) =
            nl := by
          have h2 : q.length + 1 = (joinPath top init).length + 1 := by omega
          rw [h2]
          have := @List.drop_append Nat (joinPath top init) (bsCU :: nl) 1
          simpa using this
        have hname : r.name = nl := by
          rw [← hnk, hp, hnl]
        have hq : q = joinPath top init := by
          have h1 : (q ++ c :: r.name).take q.length = q :=
            List.take_left q (c :: r.name)
          rw [hp] at h1
          have h2 : q.length = (joinPath top init).length := by omega
          rw [h2] at h1
          rw [List.take_left] at h1
          exact h1.symm
        have hih := ih hc hbsl2p hbsinit hq
        constructor
        · simp only [List.length_append, List.length_singleton]
          omega
        · intro he
          simp only [List.length_append, List.length_singleton] at he
          have heq2 : l2p = init := hih.2 (by omega)
          rw [heq2, hname]
      · -- the consumed component is longer: it would contain the real
        -- backslash separator, impossible
        exfalso
        have hsep : (joinPath top init ++ bsCU :: nl).drop
            ((joinPath top init).length) = bsCU :: nl :=
          List.drop_left _ _
        have hmem : bsCU ∈ (joinPath top init ++ bsCU :: nl).drop
            (q.length + 1) := by
          have hdd : (joinPath top init ++ bsCU :: nl).drop
              ((joinPath top init).length) =
              ((joinPath top init ++ bsCU :: nl).drop (q.length + 1)).drop
                ((joinPath top init).length - (q.length + 1)) := by
            rw [List.drop_drop]
            have : q.length + 1 + ((joinPath top init).length -
                (q.length + 1)) = (joinPath top init).length := by omega
            rw [this]
          have : bsCU ∈ ((joinPath top init ++ bsCU :: nl).drop
              (q.length + 1)).drop
                ((joinPath top init).length - (q.length + 1)) := by
            rw [← hdd, hsep]; simp
          exact List.drop_subset _ _ this
        rw [← hp, hnk] at hmem
        exact hbsnk hmem

/-!  ## Completeness of the resolver on journalled directories  -/

theorem matchesDirChain_complete {recs : List (Nat × FindData)}
    {top : List Nat} (htop : top ≠ []) :
    ∀ {F off : Nat} {l : List (List Nat)},
      chainNames recs F off = some (top :: l) →
      ∀ {F2 : Nat}, l.length + 1 ≤ F2 →
        MatchesDirChain recs F2 off (joinPath top l) = true := by
  intro F
  induction F with
  | zero => intro off l h; simp [chainNames] at h
  | succ n ih =>
    intro off l h F2 hF2
    unfold chainNames at h
    split at h
    · exact absurd h (by simp)
    · next r hr =>
      split at h
      · next h0 =>
        obtain ⟨rfl, rfl⟩ : r.name = top ∧ ([] : List (List Nat)) = l := by
          have h2 := Option.some.inj h
          simpa [List.cons.injEq] using h2
        obtain ⟨F3, rfl⟩ : ∃ f, F2 = f + 1 := ⟨F2 - 1, by omega⟩
        unfold MatchesDirChain
        simp only [hr]
        have hew : EndsWith (joinPath r.name []) r.name = true := by
          simpa [joinPath] using endsWith_append [] r.name
        rw [if_neg (by simp [hew])]
        rw [if_pos (by simpa using h0)]
        simp [joinPath]
      · next h0 =>
        cases hc : chainNames recs n r.reserved0 with
        | none => rw [hc] at h; exact absurd h (by simp)
        | some l0 =>
          rw [hc] at h
          have hl : l0 ++ [r.name] = top :: l := by simpa using h
          have hl0ne := (chainNames_ne_nil hc).1
          obtain ⟨t0, cs0, rfl⟩ : ∃ a as, l0 = a :: as :=
            ⟨l0.head hl0ne, l0.tail, (List.head_cons_tail _ _).symm⟩
          simp only [List.cons_append, List.cons.injEq] at hl
          obtain ⟨rfl, rfl⟩ := hl
          obtain ⟨F3, rfl⟩ : ∃ f, F2 = f + 1 := ⟨F2 - 1, by omega⟩
          rw [joinPath_snoc]
          unfold MatchesDirChain
          simp only [hr]
          have hjplen : 1 ≤ (joinPath t0 cs0).length := by
            obtain ⟨s, hs⟩ := joinPath_prefix cs0 t0
            rw [hs]
            have : 0 < t0.length := List.length_pos.mpr htop
            simp
            omega
          have hew : EndsWith (joinPath t0 cs0 ++ bsCU :: r.name)
              r.name = true := by
            have := endsWith_append (joinPath t0 cs0 ++ [bsCU]) r.name
            simpa using this
          rw [if_neg (by simp [hew])]
          rw [if_neg (by simpa using h0)]
          have hlenne : ¬ ((joinPath t0 cs0 ++ bsCU :: r.name).length =
              r.name.length) := by
            simp
            omega
          rw [if_neg hlenne]
          have htake : (joinPath t0 cs0 ++ bsCU :: r.name).length -
              r.name.length - 1 = (joinPath t0 cs0).length := by
            simp
            omega
          rw [htake, List.take_left]
          exact ih hc (by simp at hF2; omega)

theorem chainScan_complete {recs : List (Nat × FindData)} {fuel : Nat}
    {path : List Nat} :
    ∀ (pre : List Nat) {dOff : Nat} (rest : List Nat),
      (∀ o ∈ pre, ∃ r, recAt recs o = some r ∧
        r.attrs &&& attrDirectory ≠ 0 ∧
        MatchesDirChain recs fuel r.reserved0 path = false) →
      (∃ r, recAt recs dOff = some r ∧ r.attrs &&& attrDirectory ≠ 0 ∧
        MatchesDirChain recs fuel r.reserved0 path = true) →
      chainScan recs fuel path (pre ++ dOff :: rest) = some dOff := by
  intro pre
  induction pre with
  | nil =>
    intro dOff rest _ hd
    obtain ⟨r, hr, hdir, hm⟩ := hd
    simp only [List.nil_append]
    unfold chainScan
    simp only [hr]
    rw [if_neg (by simpa using hdir), if_pos hm]
  | cons o pre ih =>
    intro dOff rest hpre hd
    obtain ⟨r, hr, hdir, hm⟩ := hpre o (by simp)
    simp only [List.cons_append]
    unfold chainScan
    simp only [hr]
    rw [if_neg (by simpa using hdir), if_neg (by simp [hm])]
    exact ih rest (fun o2 ho2 => hpre o2 (by simp [ho2])) hd

theorem getLeafAux_complete {full : List (Nat × FindData)} {gid : Nat}
    {leaf : List Nat} :
    ∀ (grp : List (Nat × FindData)) {start stop : Nat},
      offsetsOk grp start stop = true →
      (∀ p ∈ grp, recAt full p.1 = some p.2) →
      (∀ p ∈ grp, p.2.reserved0 = gid) →
      (∃ p ∈ grp, p.2.name = leaf) →
      ∀ fuel, grp.length ≤ fuel →
        ∃ o r, GetLeafAux full gid leaf fuel start = some (o, r) ∧
          (o, r) ∈ grp ∧ r.name = leaf ∧ r.reserved0 = gid := by
  intro grp
  induction grp with
  | nil =>
    intro start stop _ _ _ hex fuel _
    simp at hex
  | cons p rest ih =>
    intro start stop hok hmem hgid hex fuel hfuel
    obtain ⟨o, r⟩ := p
    simp only [offsetsOk, Bool.and_eq_true, beq_iff_eq] at hok
    obtain ⟨⟨rfl, hs⟩, hrest⟩ := hok
    obtain ⟨f, rfl⟩ : ∃ f, fuel = f + 1 :=
      ⟨fuel - 1, by simp at hfuel; omega⟩
    have hra : recAt full o = some r := by
      have := hmem (o, r) (by simp)
      simpa using this
    have hg : r.reserved0 = gid := by
      have := hgid (o, r) (by simp)
      simpa using this
    unfold GetLeafAux
    simp only [hra]
    rw [if_neg (by simp [hg])]
    by_cases hn : leaf = r.name
    · rw [if_pos (by simpa using hn)]
      exact ⟨o, r, rfl, by simp, hn.symm, hg⟩
    · rw [if_neg (by simpa using hn)]
      have hex2 : ∃ p ∈ rest, p.2.name = leaf := by
        rcases hex with ⟨p2, hp2, hp2n⟩
        rcases List.mem_cons.mp hp2 with rfl | hp2
        · exact absurd hp2n.symm (by simpa using hn)
        · exact ⟨p2, hp2, hp2n⟩
      obtain ⟨o2, r2, hget, hmem2, hname2, hgid2⟩ :=
        ih hrest (fun p hp => hmem p (by simp [hp]))
          (fun p hp => hgid p (by simp [hp])) hex2 f
          (by simp at hfuel; omega)
      exact ⟨o2, r2, hget, by simp [hmem2], hname2, hgid2⟩

/-!  ## rfind lemmas  -/

theorem rfindBS_none {p : List Nat} (h : bsCU ∉ p) : rfindBS p = none := by
  induction p with
  | nil => rfl
  | cons c rest ih =>
    unfold rfindBS
    rw [ih (fun hm => h (by simp [hm]))]
    rw [if_neg (by simp; exact fun hc => h (by simp [hc]))]

theorem rfindBS_append {p leaf : List Nat} (h : bsCU ∉ leaf) :
    rfindBS (p ++ bsCU :: leaf) = some p.length := by
  induction p with
  | nil =>
    simp only [List.nil_append]
    unfold rfindBS
    rw [rfindBS_none h]
    simp
  | cons c rest ih =>
    simp only [List.cons_append]
    unfold rfindBS
    rw [ih]
    simp

/-!  ## Specification of the walker steps  -/

theorem stepEntry_fields (qe : QEnt) (st : BuildSt) (e : FsEntry) :
    (stepEntry qe st e).recs = st.recs ++ [(st.off, entryRec qe.qOff e)] ∧
    (stepEntry qe st e).off = nextOffset st.off (entryRec qe.qOff e) ∧
    (stepEntry qe st e).procDirs = st.procDirs ∧
    (stepEntry qe st e).all_count = st.all_count + 1 ∧
    (stepEntry qe st e).found = st.found ++ childEnt qe st.off e := by
  unfold stepEntry emitRec childEnt
  by_cases h1 : e.attrs &&& attrReparse ≠ 0
  · simp [h1]
  · by_cases h2 : e.attrs &&& attrDirectory ≠ 0
    · by_cases h3 : AddDir e.name
      · simp [h1, h2, h3]
      · simp [h1, h2, h3]
    · simp [h1, h2]

theorem stepEntries_spec (qe : QEnt) :
    ∀ (rest : List FsEntry) (st : BuildSt),
      (rest.foldl (stepEntry qe) st).recs =
          st.recs ++ layoutFrom st.off (rest.map (entryRec qe.qOff)) ∧
      (rest.foldl (stepEntry qe) st).off =
          layoutEnd st.off (rest.map (entryRec qe.qOff)) ∧
      (rest.foldl (stepEntry qe) st).procDirs = st.procDirs ∧
      (rest.foldl (stepEntry qe) st).all_count = st.all_count + rest.length ∧
      (rest.foldl (stepEntry qe) st).found =
          st.found ++ childrenOf qe st.off rest := by
  intro rest
  induction rest with
  | nil => intro st; simp [layoutFrom, layoutEnd, childrenOf]
  | cons e es ih =>
    intro st
    obtain ⟨f1, f2, f3, f4, f5⟩ := stepEntry_fields qe st e
    obtain ⟨g1, g2, g3, g4, g5⟩ := ih (stepEntry qe st e)
    simp only [List.foldl_cons, List.map_cons, layoutFrom, layoutEnd,
      childrenOf]
    refine ⟨?_, ?_, ?_, ?_, ?_⟩
    · rw [g1, f1, f2]; simp
    · rw [g2, f2]
    · rw [g3, f3]
    · rw [g4, f4]; simp only [List.length_cons]; omega
    · rw [g5, f5, f2]; simp

theorem layoutFrom_length (rs : List FindData) :
    ∀ start, (layoutFrom start rs).length = rs.length := by
  induction rs with
  | nil => intro start; rfl
  | cons r rest ih => intro start; simp [layoutFrom, ih]

theorem offsetsOk_glue {xs : List (Nat × FindData)} :
    ∀ {ys : List (Nat × FindData)} {a b c},
      offsetsOk xs a b = true → offsetsOk ys b c = true →
      offsetsOk (xs ++ ys) a c = true := by
  induction xs with
  | nil =>
    intro ys a b c h1 h2
    have : a = b := by simpa [offsetsOk] using h1
    subst this; simpa using h2
  | cons q rest ih =>
    intro ys a b c h1 h2
    obtain ⟨o, r⟩ := q
    simp only [offsetsOk, Bool.and_eq_true, beq_iff_eq] at h1
    obtain ⟨⟨ho, hs⟩, h1⟩ := h1
    simp only [List.cons_append, offsetsOk, Bool.and_eq_true, beq_iff_eq]
    exact ⟨⟨ho, hs⟩, ih h1 h2⟩

theorem fsListing_mem {fs : Fs} {p : List Nat} {f : FsEntry}
    {r : List FsEntry} (h : fsListing fs p = some (f, r)) :
    (p, f :: r) ∈ fs := by
  unfold fsListing at h
  split at h
  · next e rest2 heq =>
    obtain ⟨rfl, rfl⟩ : e = f ∧ rest2 = r := by
      have h2 := Option.some.inj h
      exact ⟨congrArg Prod.fst h2, congrArg Prod.snd h2⟩
    cases hf : List.find? (fun kv => kv.1 == p) fs with
    | none => rw [hf] at heq; simp at heq
    | some kv =>
      rw [hf] at heq
      have h2 : kv.2 = e :: rest2 := by simpa using heq
      have hmem := List.mem_of_find?_eq_some hf
      have hkey : kv.1 = p := by simpa using List.find?_some hf
      have hkv : kv = (p, e :: rest2) := by
        obtain ⟨a, b⟩ := kv
        simp only at hkey h2
        rw [hkey, h2]
      rw [hkv] at hmem
      exact hmem
  · exact absurd h (by simp)

theorem childrenOf_mem {qe : QEnt} :
    ∀ {rest : List FsEntry} {off0 : Nat} {qe2 : QEnt},
      qe2 ∈ childrenOf qe off0 rest →
      ∃ e ∈ rest, qe2.path = qe.path ++ bsCU :: e.name ∧
        qe2.comps = qe.comps ++ [e.name] ∧
        (qe2.qOff, entryRec qe.qOff e) ∈
          layoutFrom off0 (rest.map (entryRec qe.qOff)) := by
  intro rest
  induction rest with
  | nil => intro off0 qe2 h; simp [childrenOf] at h
  | cons e es ih =>
    intro off0 qe2 h
    unfold childrenOf at h
    rcases List.mem_append.mp h with h | h
    · unfold childEnt at h
      split at h
      · simp at h
      · split at h
        · split at h
          · obtain rfl : qe2 =
                ⟨qe.path ++ bsCU :: e.name, off0, qe.comps ++ [e.name]⟩ := by
              simpa using h
            refine ⟨e, by simp, rfl, rfl, ?_⟩
            simp [layoutFrom]
          · simp at h
        · simp at h
    · obtain ⟨e2, he2, h1, h2, h3⟩ := ih h
      refine ⟨e2, by simp [he2], h1, h2, ?_⟩
      simp only [List.map_cons, layoutFrom]
      exact List.mem_cons_of_mem _ h3

theorem childrenOf_comps {qe : QEnt} :
    ∀ (rest : List FsEntry) (off0 : Nat),
      (childrenOf qe off0 rest).map (·.comps) =
        (rest.filter entPasses).map (fun e => qe.comps ++ [e.name]) := by
  intro rest
  induction rest with
  | nil => intro off0; rfl
  | cons e es ih =>
    intro off0
    unfold childrenOf childEnt
    rw [List.map_append, ih]
    by_cases h1 : e.attrs &&& attrReparse = 0
    · by_cases h2 : e.attrs &&& attrDirectory ≠ 0
      · by_cases h3 : AddDir e.name = true
        · have hp : entPasses e = true := by
            simp [entPasses, h1, h2, h3]
          simp [List.filter_cons, hp, h1, h2, h3]
        · have hp : entPasses e = false := by
            simp [entPasses, h3]
          simp [List.filter_cons, hp, h1, h2, h3]
      · have hp : entPasses e = false := by
          simp [entPasses, h2]
        simp [List.filter_cons, hp, h1, h2]
    · have hp : entPasses e = false := by
        simp [entPasses, h1]
      simp [List.filter_cons, hp, h1]

theorem stepDir_none {fs : Fs} {st : BuildSt} {qe : QEnt}
    (h : fsListing fs qe.path = none) :
    stepDir fs st qe = { st with pending_fixes := st.pending_fixes + 1 } := by
  unfold stepDir
  rw [h]

theorem stepDir_some {fs : Fs} {st : BuildSt} {qe : QEnt} {first : FsEntry}
    {rest : List FsEntry} (h : fsListing fs qe.path = some (first, rest)) :
    (stepDir fs st qe).recs = st.recs ++
        groupPairs ⟨qe.path, qe.qOff, st.off, first :: rest, qe.comps⟩ ∧
    (stepDir fs st qe).off =
        layoutEnd st.off ((first :: rest).map (entryRec qe.qOff)) ∧
    (stepDir fs st qe).procDirs = st.procDirs ++
        [⟨qe.path, qe.qOff, st.off, first :: rest, qe.comps⟩] ∧
    (stepDir fs st qe).all_count = st.all_count + (1 + rest.length) ∧
    (stepDir fs st qe).found = st.found ++
        childrenOf qe (nextOffset st.off (entryRec qe.qOff first)) rest := by
  unfold stepDir
  simp only [h]
  obtain ⟨g1, g2, g3, g4, g5⟩ := stepEntries_spec qe rest
    { (emitRec st (entryRec qe.qOff first)) with
        all_count := (emitRec st (entryRec qe.qOff first)).all_count + 1 }
  refine ⟨?_, ?_, ?_, ?_, ?_⟩
  · rw [g1]; unfold groupPairs emitRec; simp [layoutFrom]
  · rw [g2]; unfold emitRec; simp [layoutEnd]
  · rw [g3]; unfold emitRec; simp
  · rw [g4]; unfold emitRec; simp; omega
  · rw [g5]; unfold emitRec; simp

/-!  ## Preservation of the walk invariant  -/

theorem infix_append_end {α : Type} {l x : List α} (h : l <:+: x)
    (y : List α) : l <:+: x ++ y := by
  obtain ⟨s, t, hst⟩ := h
  exact ⟨s, t ++ y, by rw [← hst]; simp⟩

theorem chainNames_extend {recs ext : List (Nat × FindData)} {off : Nat}
    {l : List (List Nat)}
    (h : chainNames recs (recs.length + 1) off = some l) :
    chainNames (recs ++ ext) ((recs ++ ext).length + 1) off = some l := by
  have h1 := @chainNames_append _ ext _ _ _ h
  refine chainNames_fuel h1 ?_
  have := (chainNames_ne_nil h).2
  simp only [List.length_append]
  omega

theorem chainNames_child {recs : List (Nat × FindData)} {off qOff : Nat}
    {r : FindData} {top : List Nat} {comps : List (List Nat)}
    (hr : recAt recs off = some r) (h0 : r.reserved0 = qOff) (hq : qOff ≠ 0)
    {F : Nat} (hc : chainNames recs F qOff = some (top :: comps)) :
    chainNames recs (F + 1) off = some (top :: (comps ++ [r.name])) := by
  unfold chainNames
  simp only [hr]
  rw [if_neg (by rw [h0]; exact hq)]
  rw [h0, hc]
  simp

theorem stepDir_inv {fs : Fs} {top : List Nat} (hwf : WfFs fs)
    {st : BuildSt} {qe : QEnt} {P : List QEnt} {g : Nat}
    (hinv : WalkInv fs top st (qe :: P) g) :
    WalkInv fs top (stepDir fs st qe) P g := by
  obtain ⟨I1, I2, I3, I4, I5, I6, I7, I8, I9, I10⟩ := hinv
  cases hl : fsListing fs qe.path with
  | none =>
    rw [stepDir_none hl]
    refine ⟨I1, I2, I3, ?_, ?_, I6, I7, ?_, I9, I10⟩
    · intro qe2 h2
      exact I4 qe2 (by
        rcases List.mem_append.mp h2 with h2 | h2
        · exact List.mem_append.mpr (Or.inl (by simp [h2]))
        · exact List.mem_append.mpr (Or.inr h2))
    · intro qe2 h2
      exact I5 qe2 (by simp [h2])
    · refine List.Nodup.sublist ?_ I8
      exact List.Sublist.append_left
        (by exact (List.sublist_cons_self _ _).map _) _
  | some lr =>
    obtain ⟨first, rest⟩ := lr
    obtain ⟨s1, s2, s3, s4, s5⟩ := @stepDir_some fs st qe first rest hl
    obtain ⟨hqpath, hqchain, hqoff, hqcomps⟩ := I4 qe (by simp)
    have hqdepth : qe.comps.length = g := I5 qe (by simp)
    obtain ⟨-, hdot, hdotdir, hnamesnodup, hnames⟩ :=
      hwf (qe.path, first :: rest) (fsListing_mem hl)
    -- the new group
    have hstr : ∀ r ∈ (first :: rest).map (entryRec qe.qOff),
        r.reserved1 = strideOf r.name := by
      intro r hr
      obtain ⟨e, -, rfl⟩ := List.mem_map.mp hr
      rfl
    have hgrpOk : offsetsOk
        (groupPairs ⟨qe.path, qe.qOff, st.off, first :: rest, qe.comps⟩)
        st.off (layoutEnd st.off ((first :: rest).map (entryRec qe.qOff))) =
        true := offsetsOk_layoutFrom _ st.off hstr
    have hnewOk : offsetsOk (stepDir fs st qe).recs headerSize
        (stepDir fs st qe).off = true := by
      rw [s1, s2]
      exact offsetsOk_glue I1 hgrpOk
    have hlenrecs : (stepDir fs st qe).recs.length =
        st.recs.length + (1 + rest.length) := by
      rw [s1]
      unfold groupPairs
      simp [layoutFrom_length]
      omega
    have hlenge : st.recs.length + 1 ≤ (stepDir fs st qe).recs.length := by
      omega
    -- transferring chain facts to the extended arena
    have htrans : ∀ {o : Nat} {l : List (List Nat)},
        chainNames st.recs (st.recs.length + 1) o = some l →
        chainNames (stepDir fs st qe).recs
          ((stepDir fs st qe).recs.length + 1) o = some l := by
      intro o l h
      rw [s1]
      exact chainNames_extend h
    -- the facts delivered by each freshly enqueued child
    have hchildfact : ∀ qe2 ∈ childrenOf qe
        (nextOffset st.off (entryRec qe.qOff first)) rest,
        ∃ e ∈ rest, qe2.path = qe.path ++ bsCU :: e.name ∧
          qe2.comps = qe.comps ++ [e.name] ∧
          (qe2.qOff, entryRec qe.qOff e) ∈ (stepDir fs st qe).recs := by
      intro qe2 h2
      obtain ⟨e, he, h1, hcmp, h3⟩ := childrenOf_mem h2
      refine ⟨e, he, h1, hcmp, ?_⟩
      rw [s1]
      refine List.mem_append.mpr (Or.inr ?_)
      simp only [groupPairs, List.map_cons, layoutFrom]
      exact List.mem_cons_of_mem _ h3
    have hchildmain : ∀ qe2 ∈ childrenOf qe
        (nextOffset st.off (entryRec qe.qOff first)) rest,
        qe2.path = joinPath top qe2.comps ∧
        chainNames (stepDir fs st qe).recs
          ((stepDir fs st qe).recs.length + 1) qe2.qOff =
            some (top :: qe2.comps) ∧
        qe2.qOff ≠ 0 ∧
        (∀ c ∈ qe2.comps, c ≠ [] ∧ bsCU ∉ c) ∧
        qe2.comps.length = g + 1 := by
      intro qe2 h2
      obtain ⟨e, he, h1, hcmp, h3⟩ := hchildfact qe2 h2
      have hra : recAt (stepDir fs st qe).recs qe2.qOff =
          some (entryRec qe.qOff e) := offsetsOk_recAt hnewOk _ h3
      have hge : headerSize ≤ qe2.qOff := (offsetsOk_bounds hnewOk _ h3).1
      have hcq : chainNames (stepDir fs st qe).recs
          (stepDir fs st qe).recs.length qe.qOff =
            some (top :: qe.comps) := by
        refine chainNames_fuel (htrans hqchain) ?_
        have hb := (chainNames_ne_nil hqchain).2
        omega
      refine ⟨?_, ?_, ?_, ?_, ?_⟩
      · rw [h1, hcmp, joinPath_snoc, hqpath]
      · rw [hcmp]
        exact chainNames_child hra rfl hqoff hcq
      · have h32 : headerSize = 32 := rfl
        omega
      · intro c hc
        rw [hcmp] at hc
        rcases List.mem_append.mp hc with hc | hc
        · exact hqcomps c hc
        · obtain rfl : c = e.name := by simpa using hc
          have hn := hnames e (by simp [he])
          exact ⟨hn.1, hn.2.1⟩
      · rw [hcmp]; simp [hqdepth]
    refine ⟨hnewOk, ?_, ?_, ?_, ?_, ?_, ?_, ?_, ?_, ?_⟩
    · rw [s4, hlenrecs]; omega
    · intro D hD
      rw [s3] at hD
      rcases List.mem_append.mp hD with hD | hD
      · obtain ⟨p1, p2, p3, p4, p5, p6, p7⟩ := I3 D hD
        exact ⟨p1, htrans p2, p3, p4,
          by rw [s1]; exact infix_append_end p5 _, p6, p7⟩
      · obtain rfl : D = ⟨qe.path, qe.qOff, st.off, first :: rest, qe.comps⟩ :=
          by simpa using hD
        refine ⟨hqpath, htrans hqchain, hqoff, ⟨first, rest, hl, rfl⟩, ?_,
          hqcomps, le_of_eq hqdepth⟩
        rw [s1]
        exact ⟨st.recs, [], by simp⟩
    · intro qe2 h2
      rw [s5] at h2
      rcases List.mem_append.mp h2 with h2 | h2
      · obtain ⟨p1, p2, p3, p4⟩ := I4 qe2
          (List.mem_append.mpr (Or.inl (List.mem_cons_of_mem _ h2)))
        exact ⟨p1, htrans p2, p3, p4⟩
      · rcases List.mem_append.mp h2 with h2 | h2
        · obtain ⟨p1, p2, p3, p4⟩ := I4 qe2 (List.mem_append.mpr (Or.inr h2))
          exact ⟨p1, htrans p2, p3, p4⟩
        · obtain ⟨p1, p2, p3, p4, -⟩ := hchildmain qe2 h2
          exact ⟨p1, p2, p3, p4⟩
    · intro qe2 h2
      exact I5 qe2 (List.mem_cons_of_mem _ h2)
    · intro qe2 h2
      rw [s5] at h2
      rcases List.mem_append.mp h2 with h2 | h2
      · exact I6 qe2 h2
      · exact (hchildmain qe2 h2).2.2.2.2
    · rw [s3, List.map_append, List.pairwise_append]
      refine ⟨I7, by simp, ?_⟩
      intro a ha b hb
      obtain ⟨D, hD, rfl⟩ := List.mem_map.mp ha
      obtain rfl : b = qe.comps.length := by simpa using hb
      exact le_trans ((I3 D hD).2.2.2.2.2.2) (le_of_eq hqdepth.symm)
    · rw [s3]
      simpa using I8
    · rw [s5, List.map_append, childrenOf_comps]
      refine List.Nodup.append I9 ?_ ?_
      · rw [show (rest.filter entPasses).map (fun e => qe.comps ++ [e.name]) =
            ((rest.filter entPasses).map (fun e => e.name)).map
              (fun nm => qe.comps ++ [nm]) by rw [List.map_map]; rfl]
        refine List.Nodup.map ?_ ?_
        · intro a b hab
          simpa using List.append_cancel_left hab
        · refine List.Nodup.sublist ?_ hnamesnodup
          exact ((List.filter_sublist _).map _).trans
            ((List.sublist_cons_self _ _).map _)
      · intro x hx hx2
        obtain ⟨qe2, hqe2, rfl⟩ := List.mem_map.mp hx
        obtain ⟨D2, hD2, nm, hD2c⟩ := I10 qe2 hqe2
        obtain ⟨e, -, hec⟩ := List.mem_map.mp hx2
        have heq : D2.comps ++ [nm] = qe.comps ++ [e.name] := by
          rw [← hD2c, ← hec]
        have hDq : D2.comps = qe.comps := (List.append_inj' heq (by simp)).1
        have hdisj := List.disjoint_of_nodup_append I8
        exact hdisj (List.mem_map.mpr ⟨D2, hD2, rfl⟩)
          (by rw [hDq]; exact List.mem_map.mpr ⟨qe, by simp, rfl⟩)
    · intro qe2 h2
      rw [s5] at h2
      rcases List.mem_append.mp h2 with h2 | h2
      · obtain ⟨D2, hD2, nm, hc⟩ := I10 qe2 h2
        exact ⟨D2, by rw [s3]; exact List.mem_append.mpr (Or.inl hD2), nm, hc⟩
      · obtain ⟨e, he, h1, hcmp, -⟩ := hchildfact qe2 h2
        exact ⟨⟨qe.path, qe.qOff, st.off, first :: rest, qe.comps⟩,
          by rw [s3]; simp, e.name, hcmp⟩

theorem stepDirs_inv {fs : Fs} {top : List Nat} (hwf : WfFs fs) :
    ∀ {Q : List QEnt} {st : BuildSt} {g : Nat},
      WalkInv fs top st Q g →
      WalkInv fs top (Q.foldl (stepDir fs) st) [] g := by
  intro Q
  induction Q with
  | nil => intro st g h; exact h
  | cons q Qs ih =>
    intro st g h
    exact ih (stepDir_inv hwf h)

theorem walkInv_switch {fs : Fs} {top : List Nat} {st : BuildSt} {g : Nat}
    (h : WalkInv fs top st [] g) :
    WalkInv fs top { st with found := [] } st.found (g + 1) := by
  obtain ⟨I1, I2, I3, I4, I5, I6, I7, I8, I9, I10⟩ := h
  refine ⟨I1, I2, ?_, ?_, I6, ?_, I7, ?_, ?_, ?_⟩
  · intro D hD
    obtain ⟨p1, p2, p3, p4, p5, p6, p7⟩ := I3 D hD
    exact ⟨p1, p2, p3, p4, p5, p6, Nat.le_succ_of_le p7⟩
  · intro qe hqe
    have hqe2 : qe ∈ st.found := by simpa using hqe
    exact I4 qe (by simpa using hqe2)
  · intro qe hqe
    simp at hqe
  · refine List.Nodup.append ?_ I9 ?_
    · simpa using I8
    · intro x hx hx2
      obtain ⟨D, hD, rfl⟩ := List.mem_map.mp hx
      obtain ⟨qe2, hqe2, hc⟩ := List.mem_map.mp hx2
      have h1 : D.comps.length ≤ g := (I3 D hD).2.2.2.2.2.2
      have h2 : qe2.comps.length = g + 1 := I6 qe2 hqe2
      rw [hc] at h2
      omega
  · simp
  · intro qe hqe
    simp at hqe

theorem walkLoop_inv {fs : Fs} {top : List Nat} (hwf : WfFs fs) :
    ∀ (fuel : Nat) {st : BuildSt} {P : List QEnt} {g : Nat} {stf : BuildSt},
      WalkInv fs top { st with found := [] } P g →
      walkLoop fs fuel st P = some stf →
      ∃ g2, WalkInv fs top { stf with found := [] } [] g2 := by
  intro fuel
  induction fuel with
  | zero =>
    intro st P g stf hinv h
    cases P with
    | nil =>
      obtain rfl : st = stf := by simpa [walkLoop] using h
      exact ⟨g, hinv⟩
    | cons q Ps => simp [walkLoop] at h
  | succ f ih =>
    intro st P g stf hinv h
    cases P with
    | nil =>
      obtain rfl : st = stf := by simpa [walkLoop] using h
      exact ⟨g, hinv⟩
    | cons q Ps =>
      have heq : walkLoop fs (f + 1) st (q :: Ps) =
          walkLoop fs f ((q :: Ps).foldl (stepDir fs) { st with found := [] })
            ((q :: Ps).foldl (stepDir fs) { st with found := [] }).found := rfl
      rw [heq] at h
      exact ih (walkInv_switch (stepDirs_inv hwf hinv)) h

theorem initSt_inv (fs : Fs) (top : List Nat) :
    WalkInv fs top { initSt top with found := [] }
      [⟨top, headerSize, []⟩] 0 := by
  refine ⟨?_, ?_, ?_, ?_, ?_, ?_, ?_, ?_, ?_, ?_⟩
  · simp [initSt, offsetsOk, rootRecOf]
  · rfl
  · intro D hD
    simp [initSt] at hD
  · intro qe hqe
    obtain rfl : qe = ⟨top, headerSize, []⟩ := by simpa [initSt] using hqe
    exact ⟨rfl, rfl, by simp [headerSize], by simp⟩
  · intro qe hqe
    obtain rfl : qe = ⟨top, headerSize, []⟩ := by simpa using hqe
    rfl
  · intro qe hqe
    simp [initSt] at hqe
  · simp [initSt]
  · simp [initSt]
  · simp [initSt]
  · intro qe hqe
    simp [initSt] at hqe

theorem createFFS_walkInv {fuel : Nat} {fs : Fs} {top : List Nat}
    {R : Region} (hwf : WfFs fs)
    (h : CreateFFS fuel fs top = some R) :
    ∃ st g, walkLoop fs fuel (initSt top) [⟨top, headerSize, []⟩] = some st ∧
      R = assemble st ∧ WalkInv fs top { st with found := [] } [] g := by
  unfold CreateFFS at h
  split at h
  · exact absurd h (by simp)
  · next st hst =>
    obtain rfl : assemble st = R := Option.some.inj h
    obtain ⟨g2, hinv⟩ := walkLoop_inv hwf fuel (initSt_inv fs top) hst
    exact ⟨st, g2, hst, rfl, hinv⟩

/-!  ## Small layout and index-emission lemmas  -/

theorem layoutFrom_mem_snd {rs : List FindData} :
    ∀ {start : Nat} {p : Nat × FindData},
      p ∈ layoutFrom start rs → p.2 ∈ rs := by
  induction rs with
  | nil => intro start p h; simp [layoutFrom] at h
  | cons r rest ih =>
    intro start p h
    unfold layoutFrom at h
    rcases List.mem_cons.mp h with rfl | h
    · simp
    · exact List.mem_cons_of_mem _ (ih h)

theorem layoutFrom_mem_of_mem {r : FindData} :
    ∀ {rs : List FindData} (start : Nat), r ∈ rs →
      ∃ o, (o, r) ∈ layoutFrom start rs := by
  intro rs
  induction rs with
  | nil => intro start h; simp at h
  | cons r0 rest ih =>
    intro start h
    rcases List.mem_cons.mp h with rfl | h
    · exact ⟨start, by simp [layoutFrom]⟩
    · obtain ⟨o, ho⟩ := ih (nextOffset start r0) h
      exact ⟨o, by simp [layoutFrom, ho]⟩

theorem emitAcc_cursor_le :
    ∀ (c : List Nat) (acc : List (Nat × Nat) × Nat),
      acc.2 ≤ (c.foldl
        (fun (a : List (Nat × Nat) × Nat) v => (a.1 ++ [(a.2, v)], a.2 + 4))
        acc).2 := by
  intro c
  induction c with
  | nil => intro acc; exact le_refl _
  | cons v vs ih =>
    intro acc
    simp only [List.foldl_cons]
    exact le_trans (Nat.le_add_right acc.2 4)
      (ih (acc.1 ++ [(acc.2, v)], acc.2 + 4))

theorem emitChain_cursor_le (acc : List (Nat × Nat) × Nat) (c : List Nat) :
    acc.2 ≤ (emitChain acc c).2 := by
  unfold emitChain
  dsimp only
  have h := emitAcc_cursor_le c acc
  omega

theorem emitChains_cursor_le :
    ∀ (cs : List (List Nat)) (acc : List (Nat × Nat) × Nat),
      acc.2 ≤ (cs.foldl emitChain acc).2 := by
  intro cs
  induction cs with
  | nil => intro acc; exact le_refl _
  | cons c cs2 ih =>
    intro acc
    simp only [List.foldl_cons]
    exact le_trans (emitChain_cursor_le acc c) (ih _)

theorem emitAcc_mem :
    ∀ (c : List Nat) (acc : List (Nat × Nat) × Nat) (x : Nat × Nat),
      x ∈ acc.1 →
      x ∈ (c.foldl
        (fun (a : List (Nat × Nat) × Nat) v => (a.1 ++ [(a.2, v)], a.2 + 4))
        acc).1 := by
  intro c
  induction c with
  | nil => intro acc x hx; exact hx
  | cons v vs ih =>
    intro acc x hx
    simp only [List.foldl_cons]
    exact ih _ x (List.mem_append.mpr (Or.inl hx))

theorem emitChain_mem (acc : List (Nat × Nat) × Nat) (c : List Nat)
    (x : Nat × Nat) (hx : x ∈ acc.1) : x ∈ (emitChain acc c).1 := by
  unfold emitChain
  dsimp only
  exact List.mem_append.mpr (Or.inl (emitAcc_mem c acc x hx))

theorem emitChains_mem :
    ∀ (cs : List (List Nat)) (acc : List (Nat × Nat) × Nat) (x : Nat × Nat),
      x ∈ acc.1 → x ∈ (cs.foldl emitChain acc).1 := by
  intro cs
  induction cs with
  | nil => intro acc x hx; exact hx
  | cons c cs2 ih =>
    intro acc x hx
    simp only [List.foldl_cons]
    exact ih _ x (emitChain_mem acc c x hx)

/-!  ## The change applier touches only `status` and `recs`  -/

theorem applyEvent_fields (freshOf : List Nat → FsEntry) (root : List Nat)
    (R : Region) (ev : ChangeEvent) :
    (applyEvent freshOf root R ev).dir_offset = R.dir_offset ∧
    (applyEvent freshOf root R ev).sentinelOff = R.sentinelOff ∧
    (applyEvent freshOf root R ev).procDirs = R.procDirs ∧
    (applyEvent freshOf root R ev).bytes = R.bytes := by
  unfold applyEvent
  split
  · exact ⟨rfl, rfl, rfl, rfl⟩
  · exact ⟨rfl, rfl, rfl, rfl⟩

theorem applyEvents_fields (freshOf : List Nat → FsEntry) (root : List Nat) :
    ∀ (evs : List ChangeEvent) (R : Region),
      (evs.foldl (applyEvent freshOf root) R).dir_offset = R.dir_offset ∧
      (evs.foldl (applyEvent freshOf root) R).sentinelOff = R.sentinelOff ∧
      (evs.foldl (applyEvent freshOf root) R).procDirs = R.procDirs ∧
      (evs.foldl (applyEvent freshOf root) R).bytes = R.bytes := by
  intro evs
  induction evs with
  | nil => intro R; exact ⟨rfl, rfl, rfl, rfl⟩
  | cons ev evs2 ih =>
    intro R
    obtain ⟨a1, a2, a3, a4⟩ := applyEvent_fields freshOf root R ev
    obtain ⟨b1, b2, b3, b4⟩ := ih (applyEvent freshOf root R ev)
    simp only [List.foldl_cons]
    exact ⟨b1.trans a1, b2.trans a2, b3.trans a3, b4.trans a4⟩

theorem changesCB_fields (freshOf : List Nat → FsEntry) (R : Region)
    (evs : List ChangeEvent) :
    (ChangesCompletionCB freshOf R evs).dir_offset = R.dir_offset ∧
    (ChangesCompletionCB freshOf R evs).sentinelOff = R.sentinelOff ∧
    (ChangesCompletionCB freshOf R evs).procDirs = R.procDirs ∧
    (ChangesCompletionCB freshOf R evs).bytes = R.bytes := by
  unfold ChangesCompletionCB
  split
  · exact ⟨rfl, rfl, rfl, rfl⟩
  · split
    · exact ⟨rfl, rfl, rfl, rfl⟩
    · exact applyEvents_fields freshOf _ _ { R with status := 3 }

theorem reach_fields (freshOf : List Nat → FsEntry) :
    ∀ (batches : List (List ChangeEvent)) (R : Region),
      ((batches.foldl (ChangesCompletionCB freshOf) R).dir_offset =
          R.dir_offset) ∧
      ((batches.foldl (ChangesCompletionCB freshOf) R).sentinelOff =
          R.sentinelOff) ∧
      ((batches.foldl (ChangesCompletionCB freshOf) R).procDirs =
          R.procDirs) ∧
      ((batches.foldl (ChangesCompletionCB freshOf) R).bytes = R.bytes) := by
  intro batches
  induction batches with
  | nil => intro R; exact ⟨rfl, rfl, rfl, rfl⟩
  | cons evs batches2 ih =>
    intro R
    obtain ⟨a1, a2, a3, a4⟩ := changesCB_fields freshOf R evs
    obtain ⟨b1, b2, b3, b4⟩ := ih (ChangesCompletionCB freshOf R evs)
    simp only [List.foldl_cons]
    exact ⟨b1.trans a1, b2.trans a2, b3.trans a3, b4.trans a4⟩

/-!  ## Publication invariants of an assembled region  -/

theorem assemble_pub_inv {fs : Fs} {top : List Nat} {st : BuildSt} {g : Nat}
    (hinv : WalkInv fs top { st with found := [] } [] g) :
    (assemble st).dir_offset ≠ 0 ∧
    ((assemble st).sentinelOff, 0xAA55AA55) ∈ (indexWords (assemble st)).1 ∧
    (assemble st).sentinelOff = ((assemble st).bytes + 16) / 16 * 16 ∧
    ∀ b o, o ∈ bucketChain (assemble st).procDirs b →
      headerSize ≤ o ∧ o < (assemble st).bytes := by
  obtain ⟨I1, -, I3, -⟩ := hinv
  have I1' : offsetsOk st.recs headerSize st.off = true := I1
  have I3' : ∀ D2 ∈ st.procDirs, D2.path = joinPath top D2.comps ∧
      chainNames st.recs (st.recs.length + 1) D2.qOff =
        some (top :: D2.comps) ∧
      D2.qOff ≠ 0 ∧
      (∃ f r, fsListing fs D2.path = some (f, r) ∧ D2.entries = f :: r) ∧
      groupPairs D2 <:+: st.recs ∧
      (∀ c ∈ D2.comps, c ≠ [] ∧ bsCU ∉ c) ∧ D2.comps.length ≤ g := I3
  refine ⟨?_, ?_, rfl, ?_⟩
  · have hdo : (assemble st).dir_offset = (indexWords (assemble st)).2 := rfl
    rw [hdo]
    have hle : ((assemble st).sentinelOff + 4) ≤
        (indexWords (assemble st)).2 :=
      emitChains_cursor_le (bucketsOf (assemble st).procDirs)
        ([((assemble st).sentinelOff, 0xAA55AA55)],
          (assemble st).sentinelOff + 4)
    omega
  · exact emitChains_mem (bucketsOf (assemble st).procDirs)
      ([((assemble st).sentinelOff, 0xAA55AA55)],
        (assemble st).sentinelOff + 4) _ (by simp)
  · intro b o ho
    have ho2 : o ∈ bucketChain st.procDirs b := ho
    unfold bucketChain at ho2
    obtain ⟨D, hDf, rfl⟩ := List.mem_map.mp ho2
    have hD : D ∈ st.procDirs := List.mem_of_mem_filter hDf
    obtain ⟨-, -, -, ⟨f, r, hfl, hent⟩, hinf, -, -⟩ := I3' D hD
    have hmem : (D.leaderOff, entryRec D.qOff f) ∈ st.recs := by
      refine hinf.subset ?_
      unfold groupPairs
      rw [hent]
      simp [layoutFrom]
    exact offsetsOk_bounds I1' _ hmem

/-- C7 (amended): walking the records from the end of the region header,
advancing by `record_stride`, lands exactly on `header.bytes` after
`num_nodes + 1` records: every enumerated entry is counted by `num_nodes`
(`all_count`), but the synthetic root record laid out in that same range is
not, so the walk counts one record more than `num_nodes`. -/
theorem c7_count_amended {fuel : Nat} {fs : Fs} {top : List Nat} {R : Region}
    (hwf : WfFs fs) (h : CreateFFS fuel fs top = some R) :
    countRecords R.recs R.bytes R.recs.length headerSize =
      some (R.num_nodes + 1) := by
  obtain ⟨st, g, hst, rfl, hinv⟩ := createFFS_walkInv hwf h
  obtain ⟨I1, I2, -⟩ := hinv
  have I1' : offsetsOk st.recs headerSize st.off = true := I1
  have I2' : st.all_count + 1 = st.recs.length := I2
  have hcnt := countRecords_of_offsetsOk st.recs I1'
    (offsetsOk_recAt I1') st.recs.length (le_refl _)
  show countRecords st.recs st.off st.recs.length headerSize =
    some (st.all_count + 1)
  rw [I2']
  exact hcnt

/-- C5: on a region published by a completed build — hence in every
reachable state whose header status reads `Finished`, since the change
applier never touches `dir_offset`, the sentinel, the index chains or
`bytes` — `dir_offset` is non-zero, the sentinel word `0xAA55AA55` sits at
`bytes` rounded up to the next 16-byte boundary, and every offset stored in
a bucket chain lies within the arena, between the end of the header and
`bytes`. -/
theorem c5_status_discipline {fuel : Nat} {fs : Fs} {top : List Nat}
    {R0 : Region} (hwf : WfFs fs) (h : CreateFFS fuel fs top = some R0)
    (freshOf : List Nat → FsEntry) (batches : List (List ChangeEvent))
    {R : Region} (hR : R = batches.foldl (ChangesCompletionCB freshOf) R0)
    (hfin : R.status = 4) :
    R.dir_offset ≠ 0 ∧
    (R.sentinelOff, 0xAA55AA55) ∈ (indexWords R).1 ∧
    R.sentinelOff = (R.bytes + 16) / 16 * 16 ∧
    ∀ b o, o ∈ bucketChain R.procDirs b → headerSize ≤ o ∧ o < R.bytes := by
  obtain ⟨st, g, hst, rfl, hinv⟩ := createFFS_walkInv hwf h
  obtain ⟨hbase1, hbase2, hbase3, hbase4⟩ := assemble_pub_inv hinv
  obtain ⟨f1, f2, f3, f4⟩ := reach_fields freshOf batches (assemble st)
  rw [← hR] at f1 f2 f3 f4
  have hiw : indexWords R = indexWords (assemble st) := by
    unfold indexWords
    rw [f2, f3]
  rw [f1, f2, f3, f4, hiw]
  exact ⟨hbase1, hbase2, hbase3, hbase4⟩

/-!  ## Completeness of `GetDirectory` on journalled directories  -/

theorem getDirectory_complete {fs : Fs} {top : List Nat} {st : BuildSt}
    {g : Nat} (hwf : WfFs fs) (htopbs : bsCU ∈ top)
    (hinv : WalkInv fs top { st with found := [] } [] g)
    {D : ProcDir} (hD : D ∈ st.procDirs) :
    GetDirectory (assemble st) D.path = some D.leaderOff := by
  obtain ⟨I1, I2, I3, I4, I5, I6, I7, I8, I9, I10⟩ := hinv
  have I1' : offsetsOk st.recs headerSize st.off = true := I1
  have I7' : List.Pairwise (· ≤ ·) (st.procDirs.map (·.comps.length)) := I7
  have I8' : (st.procDirs.map (·.comps)).Nodup := by simpa using I8
  have I3' : ∀ D2 ∈ st.procDirs, D2.path = joinPath top D2.comps ∧
      chainNames st.recs (st.recs.length + 1) D2.qOff =
        some (top :: D2.comps) ∧
      D2.qOff ≠ 0 ∧
      (∃ f r, fsListing fs D2.path = some (f, r) ∧ D2.entries = f :: r) ∧
      groupPairs D2 <:+: st.recs ∧
      (∀ c ∈ D2.comps, c ≠ [] ∧ bsCU ∉ c) ∧ D2.comps.length ≤ g := I3
  obtain ⟨hpath, hchain, hqoff, ⟨f, restD, hfl, hent⟩, hinf, hcomps, -⟩ :=
    I3' D hD
  have htopne : top ≠ [] := List.ne_nil_of_mem htopbs
  have hleadmem : (D.leaderOff, entryRec D.qOff f) ∈ st.recs := by
    refine hinf.subset ?_
    unfold groupPairs
    rw [hent]
    simp [layoutFrom]
  have hlead : recAt st.recs D.leaderOff = some (entryRec D.qOff f) :=
    offsetsOk_recAt I1' _ hleadmem
  obtain ⟨-, hdotname, hdotdir, -, -⟩ :=
    hwf (D.path, f :: restD) (fsListing_mem hfl)
  have hfuel : D.comps.length + 1 ≤ st.recs.length + 1 := by
    have hb := (chainNames_ne_nil hchain).2
    simp at hb
    omega
  have hmatch : MatchesDirChain st.recs (st.recs.length + 1) D.qOff
      (joinPath top D.comps) = true :=
    matchesDirChain_complete htopne hchain hfuel
  obtain ⟨A, B, hAB⟩ := List.append_of_mem hD
  have hsplit : bucketChain st.procDirs (FileHash D.path % bucketCount) =
      (A.filter (fun d => FileHash d.path % bucketCount ==
          FileHash D.path % bucketCount)).map (·.leaderOff) ++
        D.leaderOff ::
          (B.filter (fun d => FileHash d.path % bucketCount ==
            FileHash D.path % bucketCount)).map (·.leaderOff) := by
    unfold bucketChain
    rw [hAB, List.filter_append, List.filter_cons, if_pos (by simp)]
    simp
  have hpairsAD : ∀ D2 ∈ A, D2.comps.length ≤ D.comps.length := by
    intro D2 hD2
    have hI7 : List.Pairwise (· ≤ ·) ((A.map (·.comps.length)) ++
        ((D :: B).map (·.comps.length))) := by
      rw [← List.map_append, ← hAB]; exact I7'
    rw [List.pairwise_append] at hI7
    exact hI7.2.2 _ (List.mem_map.mpr ⟨D2, hD2, rfl⟩) _ (by simp)
  have hnodupAD : ∀ D2 ∈ A, D2.comps ≠ D.comps := by
    intro D2 hD2 hEq
    have hI8 : ((A.map (·.comps)) ++ ((D :: B).map (·.comps))).Nodup := by
      rw [← List.map_append, ← hAB]; exact I8'
    have hdisj := List.disjoint_of_nodup_append hI8
    exact hdisj (List.mem_map.mpr ⟨D2, hD2, rfl⟩) (by rw [hEq]; simp)
  have hfail : ∀ o ∈ (A.filter (fun d => FileHash d.path % bucketCount ==
      FileHash D.path % bucketCount)).map (·.leaderOff),
      ∃ r, recAt st.recs o = some r ∧ r.attrs &&& attrDirectory ≠ 0 ∧
        MatchesDirChain st.recs (st.recs.length + 1) r.reserved0 D.path =
          false := by
    intro o ho
    obtain ⟨D2, hD2f, rfl⟩ := List.mem_map.mp ho
    have hD2A : D2 ∈ A := List.mem_of_mem_filter hD2f
    have hD2 : D2 ∈ st.procDirs := by
      rw [hAB]; exact List.mem_append.mpr (Or.inl hD2A)
    obtain ⟨hp2, hc2, hq2, ⟨f2, r2, hfl2, hent2⟩, hinf2, hcm2, -⟩ :=
      I3' D2 hD2
    have hmem2 : (D2.leaderOff, entryRec D2.qOff f2) ∈ st.recs := by
      refine hinf2.subset ?_
      unfold groupPairs
      rw [hent2]
      simp [layoutFrom]
    have hra2 : recAt st.recs D2.leaderOff = some (entryRec D2.qOff f2) :=
      offsetsOk_recAt I1' _ hmem2
    obtain ⟨-, -, hdir2, -, -⟩ := hwf (D2.path, f2 :: r2) (fsListing_mem hfl2)
    refine ⟨entryRec D2.qOff f2, hra2, hdir2, ?_⟩
    by_contra hmt
    rw [Bool.not_eq_false] at hmt
    have hlax := matchesDirChain_lax _ _ _ hmt
    have hdep := laxChain_depth htopbs hlax hc2
      (fun c hc => (hcm2 c hc).2) (fun c hc => (hcomps c hc).2) hpath
    have hd1 := hdep.1
    have hord := hpairsAD D2 hD2A
    exact hnodupAD D2 hD2A (hdep.2 (by omega))
  have hself : ∃ r, recAt st.recs D.leaderOff = some r ∧
      r.attrs &&& attrDirectory ≠ 0 ∧
      MatchesDirChain st.recs (st.recs.length + 1) r.reserved0 D.path =
        true := by
    refine ⟨entryRec D.qOff f, hlead, hdotdir, ?_⟩
    rw [hpath]
    exact hmatch
  have hscan := chainScan_complete
    ((A.filter (fun d => FileHash d.path % bucketCount ==
        FileHash D.path % bucketCount)).map (·.leaderOff))
    ((B.filter (fun d => FileHash d.path % bucketCount ==
        FileHash D.path % bucketCount)).map (·.leaderOff))
    hfail hself
  have hDne : D.path ≠ [] := by
    obtain ⟨s, hs⟩ := joinPath_prefix D.comps top
    rw [hpath, hs]
    intro hc
    exact htopne (List.append_eq_nil.mp hc).1
  show (if D.path.isEmpty then none
    else chainScan st.recs (st.recs.length + 1) D.path
      (bucketChain st.procDirs (FileHash D.path % bucketCount))) =
    some D.leaderOff
  rw [if_neg (by simp [hDne])]
  rw [hsplit]
  exact hscan

/-- C1: round-trip of resolution.  For every directory the walk journalled
and every entry its listing reported (other than the `"."` and `".."`
pseudo-entries), `GetNode` (`resolve_any`) applied to the entry's full path
— the directory's path, a backslash, the entry's name — on the published
region returns a record bearing the queried leaf name whose full path,
reconstructed by walking `parent_offset` links to the synthetic root and
joining `name` fields with backslashes, equals the input path.  The root
path must name a drive (`top[1] = ':'`, so in particular it holds a
backslash and has length at least 2), which every absolute Windows volume
path does. -/
theorem c1_roundtrip {fuel : Nat} {fs : Fs} {top : List Nat} {R : Region}
    (hwf : WfFs fs) (htop2 : 2 ≤ top.length) (htopc : top.getD 1 0 = 58)
    (htopbs : bsCU ∈ top) (hR : CreateFFS fuel fs top = some R)
    {D : ProcDir} (hD : D ∈ R.procDirs) {e : FsEntry} (he : e ∈ D.entries)
    (hdot : e.name ≠ [dotCU]) (hdotdot : e.name ≠ [dotCU, dotCU]) :
    ∃ off r, GetNode R (D.path ++ bsCU :: e.name) = some (off, r) ∧
      r.name = e.name ∧
      reconstruct R.recs (R.recs.length + 2) off =
        some (D.path ++ bsCU :: e.name) := by
  obtain ⟨st, g, hst, rfl, hinv⟩ := createFFS_walkInv hwf hR
  have hD' : D ∈ st.procDirs := hD
  have hgd := getDirectory_complete hwf htopbs hinv hD'
  obtain ⟨I1, I2, I3, I4, I5, I6, I7, I8, I9, I10⟩ := hinv
  have I1' : offsetsOk st.recs headerSize st.off = true := I1
  have I3' : ∀ D2 ∈ st.procDirs, D2.path = joinPath top D2.comps ∧
      chainNames st.recs (st.recs.length + 1) D2.qOff =
        some (top :: D2.comps) ∧
      D2.qOff ≠ 0 ∧
      (∃ f r, fsListing fs D2.path = some (f, r) ∧ D2.entries = f :: r) ∧
      groupPairs D2 <:+: st.recs ∧
      (∀ c ∈ D2.comps, c ≠ [] ∧ bsCU ∉ c) ∧ D2.comps.length ≤ g := I3
  obtain ⟨hpath, hchain, hqoff, ⟨f, restD, hfl, hent⟩, hinf, hcomps, -⟩ :=
    I3' D hD'
  obtain ⟨-, hdotname, hdotdir, hnodup, hnames⟩ :=
    hwf (D.path, f :: restD) (fsListing_mem hfl)
  have hnamese : e.name ≠ [] ∧ bsCU ∉ e.name ∧ (0 : Nat) ∉ e.name :=
    hnames e (hent ▸ he)
  have hbse : bsCU ∉ e.name := hnamese.2.1
  have hnee : e.name ≠ [] := hnamese.1
  have heR : e ∈ restD := by
    have he2 : e ∈ f :: restD := hent ▸ he
    rcases List.mem_cons.mp he2 with rfl | h2
    · exact absurd (show e.name = [dotCU] from hdotname) hdot
    · exact h2
  obtain ⟨s, hs⟩ := joinPath_prefix D.comps top
  have hpds : D.path = top ++ s := by rw [hpath, hs]
  have hlen3 : ¬ ((D.path ++ bsCU :: e.name).length < 3) := by
    have h2 : 0 < e.name.length := List.length_pos.mpr hnee
    rw [hpds]
    simp only [List.length_append, List.length_cons]
    omega
  have hgd1 : (D.path ++ bsCU :: e.name).getD 1 0 = 58 := by
    rw [hpds, List.append_assoc]
    rw [List.getD_append top (s ++ bsCU :: e.name) 0 1 (by omega)]
    exact htopc
  obtain ⟨ni, nl, hnameconcat⟩ :=
    (List.eq_nil_or_concat e.name).resolve_left hnee
  have hnlmem : nl ∈ e.name := by rw [hnameconcat]; simp
  have hnlne : nl ≠ bsCU := fun hc => hbse (hc ▸ hnlmem)
  have hlast2 : (D.path ++ bsCU :: e.name).getLast? = some nl := by
    have hsplit2 : D.path ++ bsCU :: e.name =
        (D.path ++ bsCU :: ni) ++ [nl] := by
      rw [hnameconcat]; simp
    rw [hsplit2, List.getLast?_concat]
  have hrfind : rfindBS (D.path ++ bsCU :: e.name) = some D.path.length :=
    rfindBS_append hbse
  have htake : (D.path ++ bsCU :: e.name).take D.path.length = D.path :=
    List.take_left _ _
  have hdrop : (D.path ++ bsCU :: e.name).drop (D.path.length + 1) =
      e.name := by
    have hd := @List.drop_append Nat D.path (bsCU :: e.name) 1
    simpa using hd
  have hleadmem : (D.leaderOff, entryRec D.qOff f) ∈ st.recs := by
    refine hinf.subset ?_
    unfold groupPairs
    rw [hent]
    simp [layoutFrom]
  have hlead : recAt st.recs D.leaderOff = some (entryRec D.qOff f) :=
    offsetsOk_recAt I1' _ hleadmem
  have hstr2 : ∀ r2 ∈ restD.map (entryRec D.qOff),
      r2.reserved1 = strideOf r2.name := by
    intro r2 hr2
    obtain ⟨e2, -, rfl⟩ := List.mem_map.mp hr2
    rfl
  have hgrpOk := offsetsOk_layoutFrom (restD.map (entryRec D.qOff))
    (nextOffset D.leaderOff (entryRec D.qOff f)) hstr2
  have hgrpsub : ∀ p ∈ layoutFrom
      (nextOffset D.leaderOff (entryRec D.qOff f))
      (restD.map (entryRec D.qOff)), p ∈ st.recs := by
    intro p hp
    refine hinf.subset ?_
    unfold groupPairs
    rw [hent]
    simp only [List.map_cons, layoutFrom]
    exact List.mem_cons_of_mem _ hp
  have hmemall : ∀ p ∈ layoutFrom
      (nextOffset D.leaderOff (entryRec D.qOff f))
      (restD.map (entryRec D.qOff)), recAt st.recs p.1 = some p.2 :=
    fun p hp => offsetsOk_recAt I1' p (hgrpsub p hp)
  have hgidall : ∀ p ∈ layoutFrom
      (nextOffset D.leaderOff (entryRec D.qOff f))
      (restD.map (entryRec D.qOff)), p.2.reserved0 = D.qOff := by
    intro p hp
    have hsnd := layoutFrom_mem_snd hp
    obtain ⟨e2, -, he2⟩ := List.mem_map.mp hsnd
    rw [← he2]
    rfl
  have hex : ∃ p ∈ layoutFrom
      (nextOffset D.leaderOff (entryRec D.qOff f))
      (restD.map (entryRec D.qOff)), p.2.name = e.name := by
    obtain ⟨o0, ho0⟩ := layoutFrom_mem_of_mem
      (nextOffset D.leaderOff (entryRec D.qOff f))
      (List.mem_map.mpr ⟨e, heR, rfl⟩)
    exact ⟨(o0, entryRec D.qOff e), ho0, rfl⟩
  have hglen : (layoutFrom (nextOffset D.leaderOff (entryRec D.qOff f))
      (restD.map (entryRec D.qOff))).length ≤ st.recs.length + 1 := by
    have h1 := hinf.length_le
    have h2 : (groupPairs D).length = restD.length + 1 := by
      unfold groupPairs
      rw [hent]
      simp [layoutFrom_length]
    rw [layoutFrom_length]
    simp
    omega
  obtain ⟨lo, lr, hgl, hglmem, hglname, hglgid⟩ :=
    getLeafAux_complete _ hgrpOk hmemall hgidall hex (st.recs.length + 1)
      hglen
  have hra2 : recAt st.recs lo = some lr := hmemall _ hglmem
  have hchild := chainNames_child hra2 hglgid hqoff hchain
  have hrec : reconstruct st.recs (st.recs.length + 2) lo =
      some (joinPath top (D.comps ++ [lr.name])) := by
    refine reconstruct_of_chainNames hchild ?_
    have hb := (chainNames_ne_nil hchain).2
    simp at hb ⊢
    omega
  have hrec2 : reconstruct st.recs (st.recs.length + 2) lo =
      some (D.path ++ bsCU :: e.name) := by
    rw [hrec, joinPath_snoc, ← hpath, hglname]
  refine ⟨lo, lr, ?_, hglname, hrec2⟩
  have hsr : (assemble st).recs = st.recs := rfl
  unfold GetNode
  rw [hsr]
  rw [if_neg hlen3]
  rw [if_neg (not_not_intro hgd1)]
  rw [if_neg (by rw [hlast2]; simp [hnlne])]
  simp only [hrfind]
  rw [htake]
  simp only [hgd]
  simp only [hlead]
  rw [if_neg (by simp [entryRec, hqoff])]
  rw [hdrop]
  unfold GetLeaf
  exact hgl

/-- The example filesystem is well-formed in the sense the build invariant
needs. -/
theorem wfFs_fsEx : WfFs fsEx := by
  unfold WfFs
  decide

/-- Witness for the C7 amended theorem: on the region built from `fsEx`,
the stride walk from the header end to `bytes` counts `num_nodes + 1`
records (`8 = 7 + 1`). -/
theorem c7_count_amended_witness :
    countRecords RegionEx.recs RegionEx.bytes RegionEx.recs.length
      headerSize = some (RegionEx.num_nodes + 1) :=
  c7_count_amended wfFs_fsEx regionEx_build

/-- Witness for the C5 theorem: the region built from `fsEx`, observed with
no change batches applied, has status `Finished` and satisfies the three
publication invariants. -/
theorem c5_status_discipline_witness :
    RegionEx.dir_offset ≠ 0 ∧
    (RegionEx.sentinelOff, 0xAA55AA55) ∈ (indexWords RegionEx).1 ∧
    RegionEx.sentinelOff = (RegionEx.bytes + 16) / 16 * 16 ∧
    ∀ b o, o ∈ bucketChain RegionEx.procDirs b →
      headerSize ≤ o ∧ o < RegionEx.bytes :=
  c5_status_discipline wfFs_fsEx regionEx_build (fun _ => default) [] rfl
    (by decide)

/-- Witness for the C1 round-trip theorem: on the region built from `fsEx`,
the walked path `c:\r\D\b.txt` resolves to a record named `b.txt` whose
reconstructed full path is `c:\r\D\b.txt` again. -/
theorem c1_roundtrip_witness :
    ∃ off r, GetNode RegionEx
        ([99, 58, 92, 114, 92, 68] ++ bsCU :: [98, 46, 116, 120, 116]) =
          some (off, r) ∧
      r.name = [98, 46, 116, 120, 116] ∧
      reconstruct RegionEx.recs (RegionEx.recs.length + 2) off =
        some ([99, 58, 92, 114, 92, 68] ++ bsCU :: [98, 46, 116, 120, 116]) :=
  @c1_roundtrip 5 fsEx topEx RegionEx wfFs_fsEx (by decide) (by decide)
    (by decide) regionEx_build
    ⟨[99, 58, 92, 114, 92, 68], 256, 308,
      [⟨[46], 16, 12, 1, 0, 0⟩, ⟨[46, 46], 16, 12, 1, 0, 0⟩,
       ⟨[98, 46, 116, 120, 116], 32, 101, 1, 0, 7⟩], [[68]]⟩
    (by decide) ⟨[98, 46, 116, 120, 116], 32, 101, 1, 0, 7⟩ (by decide)
    (by decide) (by decide)

end FFS
